import Mathlib

/-!
# PicoEEG `reception.c`: acquisition driver and JSON encoder

A shallow embedding of `src/codigo/PicoEEG/reception.c`.

* The build-time constants `NUMBER_OF_CHANNELS` and `NUMBER_OF_TOTAL_SAMPLES`
  are parameters `C` and `N` of the definitions; `referenceChannels` and
  `referenceSamples` are the values the source gives them.
* Character arrays are lists of characters together with the capacity of
  the array that holds them; a write past the capacity is undefined
  behaviour and is the result `none`.
* Single-precision arithmetic is modelled exactly: a finite non-negative
  value is a fraction of two naturals and every operation rounds its exact
  result to the nearest value with a 24-bit significand, ties to even.
-/

namespace PicoEEG

/-! ## Build-time constants -/

/-- The value of `NUMBER_OF_CHANNELS` in the source. -/
def referenceChannels : Nat := 4

/-- The value of `NUMBER_OF_TOTAL_SAMPLES` in the source. -/
def referenceSamples : Nat := 1125

/-! ## Single-precision arithmetic -/

/-- A non-negative rational `num / den` (with `den > 0`), not normalised. -/
structure Frac where
  num : Nat
  den : Nat
deriving DecidableEq, Repr

/-- Floor of the base-2 logarithm of a positive natural (`0` for `0`);
the first argument bounds the recursion and is taken as the number itself. -/
def ilog2 : Nat → Nat → Nat
  | 0, _ => 0
  | fuel + 1, n => if n < 2 then 0 else ilog2 fuel (n / 2) + 1

/-- Round the fraction `p / q` to the nearest integer, ties to even. -/
def roundNearestEven (p q : Nat) : Nat :=
  let d := p / q
  let r2 := 2 * (p % q)
  if r2 < q then d
  else if q < r2 then d + 1
  else if d % 2 = 0 then d else d + 1

/-- Floor of the base-2 logarithm of the positive fraction `p / q`. -/
def fracLog2 (p q : Nat) : Int :=
  let lp := ilog2 p p
  let lq := ilog2 q q
  if p * 2 ^ lq < q * 2 ^ lp then (lp : Int) - lq - 1 else (lp : Int) - lq

/-- IEEE-754 binary32 rounding (round to nearest, ties to even) of a
non-negative rational: the significand keeps 24 bits, and the exponent of the
unit in the last place is never below `-149` (gradual underflow). Overflow to
infinity is not represented; every value this program forms is below `2^17`. -/
def f32_round (x : Frac) : Frac :=
  if x.num = 0 then ⟨0, 1⟩
  else
    let e : Int := max (fracLog2 x.num x.den) (-126)
    let s : Int := 23 - e
    if 0 ≤ s then
      ⟨roundNearestEven (x.num * 2 ^ s.toNat) x.den, 2 ^ s.toNat⟩
    else
      ⟨roundNearestEven x.num (x.den * 2 ^ (-s).toNat) * 2 ^ (-s).toNat, 1⟩

/-- Conversion of a non-negative `int` to `float`. -/
def f32_of_int (n : Nat) : Frac := f32_round ⟨n, 1⟩

/-- Single-precision product. -/
def f32_mul (a b : Frac) : Frac := f32_round ⟨a.num * b.num, a.den * b.den⟩

/-- Single-precision quotient. -/
def f32_div (a b : Frac) : Frac := f32_round ⟨a.num * b.den, a.den * b.num⟩

/-- C's `round`: nearest integer, halves away from zero (the argument is
non-negative, and the `float` to `double` promotion is exact). -/
def c_round (x : Frac) : Nat := (2 * x.num + x.den) / (2 * x.den)

/-- `const float CONVERSION_FACTOR = 3.3f * 1000 / (1 << 12);` -/
def CONVERSION_FACTOR : Frac :=
  f32_div (f32_mul (f32_round ⟨33, 10⟩) (f32_of_int 1000)) (f32_of_int (1 <<< 12))

/-- The right-hand side of
`values_mv[channel][sampling_count] = round(adc_value * CONVERSION_FACTOR);`
for `uint16_t adc_value = adc_read();`: the reading is truncated to 16 bits,
promoted to `int`, converted to `float`, multiplied in single precision,
rounded by `round`, and converted to the `uint16_t` cell. -/
def convert (adc_read : Nat) : Nat :=
  let adc_value := adc_read % 2 ^ 16
  c_round (f32_mul (f32_of_int adc_value) CONVERSION_FACTOR) % 2 ^ 16

/-! ## C strings in fixed-capacity arrays -/

/-- `sizeof` of a string literal: its characters and the terminating NUL. -/
def sizeof_lit (s : String) : Nat := s.length + 1

/-- The text `sprintf` produces for `%d` given a non-negative `int`. -/
def sprintf_d (v : Nat) : List Char := Nat.toDigits 10 v

/-- `sprintf` into a character array of `cap` bytes: the formatted text and
its NUL must fit, otherwise the write runs past the array. -/
def sprintf (cap : Nat) (text : List Char) : Option (List Char) :=
  if text.length + 1 ≤ cap then some text else none

/-- `strcpy(dst, src)` into an array of `cap` bytes. -/
def strcpy (cap : Nat) (src : List Char) : Option (List Char) :=
  if src.length + 1 ≤ cap then some src else none

/-- `strcat(dst, src)` where `dst` lives in an array of `cap` bytes. -/
def strcat (cap : Nat) (dst src : List Char) : Option (List Char) :=
  if dst.length + src.length + 1 ≤ cap then some (dst ++ src) else none

/-! ## `main`: the precomputed record size -/

/-- `TOTAL_BYTES_TO_SEND` as `main` computes it. The unsigned arithmetic
cannot wrap for a buffer that fits a 32-bit address space together with its
record, so it is taken over the naturals. -/
def TOTAL_BYTES_TO_SEND (C N : Nat) : Nat :=
  sizeof_lit "\x7b\x7d\n"
    + (sizeof_lit "\"ch0\":[]," - sizeof_lit "") * C
    + (sizeof_lit "0000," - sizeof_lit "") * N * C
    - (C + 1)

/-! ## `build_json` -/

/-- The inner loop of `build_json`: append the samples of one channel. -/
def build_json_samples (N : Nat) (row : Nat → Nat) (total_bytes : Nat)
    (str : List Char) : Option (List Char) :=
  (List.range N).foldlM (fun str sampling_number => do
    let aux ← sprintf (sizeof_lit "0000,")
      (if sampling_number < N - 1 then sprintf_d (row sampling_number) ++ ",".toList
       else sprintf_d (row sampling_number))
    strcat total_bytes str aux) str

/-- The outer loop of `build_json`: label, samples and closing bracket of
every channel. -/
def build_json_channels (C N : Nat) (values_mv : Nat → Nat → Nat) (total_bytes : Nat)
    (str : List Char) : Option (List Char) :=
  (List.range C).foldlM (fun str channel => do
    let label ← sprintf 8 ("\"ch".toList ++ sprintf_d channel ++ "\":[".toList)
    let str ← strcat total_bytes str label
    let str ← build_json_samples N (values_mv channel) total_bytes str
    if channel < C - 1 then strcat total_bytes str "],".toList
    else strcat total_bytes str "]\x7d\n".toList) str

/-- `build_json(data, total_bytes)`. `malloc_ok` says whether `malloc`
returned storage, `data` is the text the destination holds before the call;
the destination has `total_bytes` bytes, as in `main`. The result is the text
in the destination afterwards and what was printed; `none` is a write past
the end of an array. -/
def build_json (C N : Nat) (values_mv : Nat → Nat → Nat) (malloc_ok : Bool)
    (data : List Char) (total_bytes : Nat) : Option (List Char × List Char) :=
  if malloc_ok = false then some (data, "Memory allocation failed\n".toList)
  else do
    let str ← strcpy total_bytes "\x7b".toList
    let str ← build_json_channels C N values_mv total_bytes str
    let data ← strcpy total_bytes str
    some (data, [])

/-! ## Program state, `read_adc`, `start_sampling`, `send_data`, the main loop -/

/-- The variables of the program and what its hardware has seen. -/
structure State where
  /-- `values_mv[channel][tick]`. -/
  values_mv : Nat → Nat → Nat
  /-- `sampling_done`. -/
  sampling_done : Bool
  /-- The static `sampling_count` of `read_adc`. -/
  sampling_count : Nat
  /-- Whether the repeating timer of `start_sampling` is scheduled. -/
  timer_armed : Bool
  /-- The input last chosen by `adc_select_input`. -/
  adc_selected : Nat
  /-- The inputs on which `adc_read` ran, oldest first. -/
  adc_reads : List Nat
  /-- The text in `data_to_send` (indeterminate at start-up). -/
  data_to_send : List Char
  /-- The strings handed to `uart_puts`, oldest first. -/
  uart : List (List Char)
  /-- What `printf` wrote. -/
  stdout : List Char

/-- The assignment `values_mv[channel][tick] = v` on a `C` by `N` array; an
index outside the array is `none`. -/
def store (C N : Nat) (values_mv : Nat → Nat → Nat) (channel tick v : Nat) :
    Option (Nat → Nat → Nat) :=
  if channel < C ∧ tick < N then
    some (fun c t => if c = channel ∧ t = tick then v else values_mv c t)
  else none

/-- The `for` loop of `read_adc`; `adc i` is the raw reading analog input `i`
gives during this invocation. -/
def read_adc_channels (C N : Nat) (adc : Nat → Nat) (s : State) : Option State :=
  (List.range C).foldlM (fun s channel => do
    let s := { s with adc_selected := channel }
    let adc_value := adc s.adc_selected
    let s := { s with adc_reads := s.adc_reads ++ [s.adc_selected] }
    let buf ← store C N s.values_mv channel s.sampling_count (convert adc_value)
    some { s with values_mv := buf }) s

/-- The timer callback `read_adc`: the state afterwards and the returned
value. -/
def read_adc (C N : Nat) (adc : Nat → Nat) (s : State) : Option (State × Bool) :=
  if s.sampling_count ≥ N then
    some ({ s with sampling_done := true, timer_armed := false, sampling_count := 0 }, true)
  else do
    let s ← read_adc_channels C N adc s
    some ({ s with sampling_count := s.sampling_count + 1 }, true)

/-- `start_sampling()`. -/
def start_sampling (s : State) : State :=
  { s with sampling_done := false, timer_armed := true }

/-- `send_data(data)`. -/
def send_data (data : List Char) (s : State) : State :=
  { s with uart := s.uart ++ [data] }

/-- One iteration of the `while (true)` loop of `main`. -/
def main_loop_iteration (C N : Nat) (malloc_ok : Bool) (s : State) : Option State :=
  if s.sampling_done then do
    let (data, printed) ← build_json C N s.values_mv malloc_ok s.data_to_send
      (TOTAL_BYTES_TO_SEND C N)
    let s := { s with data_to_send := data, stdout := s.stdout ++ printed }
    let s := send_data s.data_to_send s
    let s := { s with sampling_done := false }
    some (start_sampling s)
  else some s

/-- Successive invocations of `read_adc`, one per element of `adcs`, each
with the readings the analog inputs give at that tick. -/
def invocations (C N : Nat) : List (Nat → Nat) → State → Option State
  | [], s => some s
  | adc :: rest, s => do
    let (s, _) ← read_adc C N adc s
    invocations C N rest s

/-- The state the `for` loop of `read_adc` has reached after `n` channels. -/
def sampled (adc : Nat → Nat) (s : State) (n : Nat) : State :=
  { s with
    adc_selected := if n = 0 then s.adc_selected else n - 1
    adc_reads := s.adc_reads ++ List.range n
    values_mv := fun c t =>
      if c < n ∧ t = s.sampling_count then convert (adc c) else s.values_mv c t }

/-- The program's variables as C initialises them, before `main` runs:
static storage is zero, no timer is scheduled, nothing was read or sent.
`data` is whatever the automatic array `data_to_send` happens to hold. -/
def reset_state (data : List Char) : State :=
  { values_mv := fun _ _ => 0
    sampling_done := false
    sampling_count := 0
    timer_armed := false
    adc_selected := 0
    adc_reads := []
    data_to_send := data
    uart := []
    stdout := [] }

/-- The raw readings of the end-to-end scenario, one entry per tick: every
analog input reads `0`, then `2048`, then `4095`. -/
def scenario_readings : List (Nat → Nat) :=
  [fun _ => 0, fun _ => 2048, fun _ => 4095]

/-- The end-to-end scenario with two channels and three ticks: from the
reset state, `start_sampling()`, then the three sampling invocations and the
invocation that completes the window. -/
def scenario_run : Option State :=
  invocations 2 3 (scenario_readings ++ [fun _ => 0]) (start_sampling (reset_state []))

/-- The record of the end-to-end scenario: `build_json` on the buffer the
driver filled. -/
def scenario_record : Option (List Char × List Char) :=
  scenario_run.bind fun s =>
    build_json 2 3 s.values_mv true s.data_to_send (TOTAL_BYTES_TO_SEND 2 3)

/-- A two-channel, three-tick buffer used to exercise the encoder. -/
def sample_buffer : Nat → Nat → Nat := fun k i => 1000 * k + 7 * i

/-! ## The record format as the specification words it -/

/-- The decimal numeral of a natural: most significant digit first, no
leading zero, no sign, no fraction. -/
def decimal (n : Nat) : List Char :=
  if n = 0 then "0".toList else (Nat.digits 10 n).reverse.map Nat.digitChar

/-- The texts of a list, separated by single commas. -/
def commaSep : List (List Char) → List Char
  | [] => []
  | [x] => x
  | x :: y :: rest => x ++ ",".toList ++ commaSep (y :: rest)

/-- One channel of the record: its label, a colon and its array. -/
def member_text (k : Nat) (samples : List Nat) : List Char :=
  "\"ch".toList ++ decimal k ++ "\":".toList
    ++ "[".toList ++ commaSep (samples.map decimal) ++ "]".toList

/-- The record for a `C` by `N` buffer. -/
def record_text (C N : Nat) (values_mv : Nat → Nat → Nat) : List Char :=
  "\x7b".toList
    ++ commaSep ((List.range C).map fun k => member_text k ((List.range N).map (values_mv k)))
    ++ "\x7d".toList ++ "\n".toList

/-! ## What the loops of `build_json` have appended so far -/

/-- The text the inner loop of `build_json` has appended after `n` samples
of a channel. -/
def samples_acc (N : Nat) (row : Nat → Nat) : Nat → List Char
  | 0 => []
  | n + 1 => samples_acc N row n ++
      (if n < N - 1 then decimal (row n) ++ ",".toList else decimal (row n))

/-- The text the outer loop of `build_json` has appended after `n`
channels. -/
def channels_acc (C N : Nat) (values_mv : Nat → Nat → Nat) : Nat → List Char
  | 0 => []
  | n + 1 => channels_acc C N values_mv n
      ++ ("\"ch".toList ++ decimal n ++ "\":[".toList)
      ++ samples_acc N (values_mv n) N
      ++ (if n < C - 1 then "],".toList else "]\x7d\n".toList)

/-- The number of digit characters in the record of a `C` by `N` buffer. -/
def digit_count (C N : Nat) (values_mv : Nat → Nat → Nat) : Nat :=
  ((List.range C).map fun k =>
    ((List.range N).map fun i => (decimal (values_mv k i)).length).sum).sum

/-! ## Reading a record back -/

/-- Split off the longest prefix of decimal digits. -/
def take_digits : List Char → List Char × List Char
  | [] => ([], [])
  | c :: cs =>
    if c.isDigit then (c :: (take_digits cs).1, (take_digits cs).2) else ([], c :: cs)

/-- The number a string of decimal digits denotes. -/
def digits_value (ds : List Char) : Nat :=
  ds.foldl (fun acc c => 10 * acc + (c.toNat - 48)) 0

/-- One or more comma-separated unsigned integers; a numeral with a leading
zero, other than `0` itself, is refused. The first argument bounds the
recursion. -/
def parse_ints : Nat → List Char → Option (List Nat × List Char)
  | 0, _ => none
  | fuel + 1, s =>
    match take_digits s with
    | ([], _) => none
    | (d :: ds, rest) =>
      if d = '0' ∧ ds ≠ [] then none
      else match rest with
        | [] => some ([digits_value (d :: ds)], [])
        | c :: rest1 =>
          if c = ',' then
            (parse_ints fuel rest1).map fun r => (digits_value (d :: ds) :: r.1, r.2)
          else some ([digits_value (d :: ds)], c :: rest1)

/-- An array: `[`, one or more integers, `]`. -/
def parse_array (s : List Char) : Option (List Nat × List Char) :=
  match s with
  | [] => none
  | c :: s1 =>
    if c = '[' then
      match parse_ints s1.length s1 with
      | some (vs, d :: rest) => if d = ']' then some (vs, rest) else none
      | _ => none
    else none

/-- A member: a quoted key, a colon and an array. -/
def parse_member (s : List Char) : Option ((List Char × List Nat) × List Char) :=
  match s with
  | [] => none
  | c :: s1 =>
    if c = '"' then
      match s1.dropWhile (fun x => x != '"') with
      | _ :: c2 :: s2 =>
        if c2 = ':' then
          (parse_array s2).map fun r => ((s1.takeWhile (fun x => x != '"'), r.1), r.2)
        else none
      | _ => none
    else none

/-- One or more comma-separated members. The first argument bounds the
recursion. -/
def parse_members : Nat → List Char → Option (List (List Char × List Nat) × List Char)
  | 0, _ => none
  | fuel + 1, s =>
    match parse_member s with
    | none => none
    | some (m, []) => some ([m], [])
    | some (m, c :: rest) =>
      if c = ',' then (parse_members fuel rest).map fun r => (m :: r.1, r.2)
      else some ([m], c :: rest)

/-- Read a whole record: an opening brace, the members, a closing brace and
a newline, and nothing else. The result maps each key, in order of
appearance, to its sequence of integers. -/
def parse_record (s : List Char) : Option (List (List Char × List Nat)) :=
  match s with
  | [] => none
  | c :: s1 =>
    if c = Char.ofNat 123 then
      match parse_members s1.length s1 with
      | some (ms, rest) => if rest = [Char.ofNat 125, '\n'] then some ms else none
      | none => none
    else none

/-- The map a `C` by `N` buffer stands for: key `ch{k}` to the samples of
channel `k` in tick order. -/
def buffer_map (C N : Nat) (values_mv : Nat → Nat → Nat) : List (List Char × List Nat) :=
  (List.range C).map fun k => ("ch".toList ++ decimal k, (List.range N).map (values_mv k))

/-! ## The program as a transition system -/

/-- What can happen next: the repeating timer fires and `read_adc` runs
while the analog inputs give the readings `adc`, or the `while` loop of
`main` makes one iteration, `malloc_ok` saying whether `malloc` returns
storage in it. The timer can interrupt `main` only while it is scheduled;
an iteration that drains a window schedules it in its last statement. -/
inductive Event where
  | tick (adc : Nat → Nat)
  | loop (malloc_ok : Bool)

/-- One step of the program. A tick is possible only while the timer is
scheduled. -/
def step (C N : Nat) (e : Event) (s : State) : Option State :=
  match e with
  | Event.tick adc => if s.timer_armed then (read_adc C N adc s).map Prod.fst else none
  | Event.loop malloc_ok => main_loop_iteration C N malloc_ok s

/-- A sequence of steps. -/
def run (C N : Nat) : List Event → State → Option State
  | [], s => some s
  | e :: rest, s => (step C N e s).bind (run C N rest)

/-- The state in which `main` enters its `while` loop: the reset state after
`start_sampling()`. -/
def startup (data : List Char) : State := start_sampling (reset_state data)

/-- The readings of an event come from a 12-bit converter. -/
def twelve_bit (C : Nat) : Event → Prop
  | Event.tick adc => ∀ i < C, adc i < 4096
  | Event.loop _ => True

/-- What holds in every state the program reaches: the tick counter never
passes the window length, and while the completion flag is set the timer is
cancelled and the counter is back at 0. -/
def Inv (N : Nat) (s : State) : Prop :=
  s.sampling_count ≤ N
    ∧ (s.sampling_done = true → s.timer_armed = false ∧ s.sampling_count = 0)

/-- The digit positions the size computation reserves and the record of a
`C` by `N` buffer leaves unused: four minus the number of digits, summed over
the samples. -/
def unused_digits (C N : Nat) (values_mv : Nat → Nat → Nat) : Nat :=
  ((List.range C).map fun k =>
    ((List.range N).map fun i => 4 - (decimal (values_mv k i)).length).sum).sum

/-- A first window of the two-channel, three-tick configuration: three
sampling ticks and the tick that completes the window. -/
def first_window : List Event :=
  [Event.tick (fun _ => 0), Event.tick (fun _ => 2048), Event.tick (fun _ => 4095),
    Event.tick (fun _ => 0)]

/-- A second window with other readings. -/
def second_window : List Event :=
  [Event.tick (fun _ => 100), Event.tick (fun _ => 200), Event.tick (fun _ => 300),
    Event.tick (fun _ => 0)]

/-- The state when the first window has completed. -/
def first_completed : State :=
  (run 2 3 first_window (startup [])).getD (startup [])

/-- The state after the first window was drained with `malloc` succeeding. -/
def first_drained : State :=
  (main_loop_iteration 2 3 true first_completed).getD (startup [])

/-- Two windows, the first drained with `malloc` succeeding, the second with
`malloc` returning `NULL`. -/
def failed_drain : List Event :=
  first_window ++ [Event.loop true] ++ second_window ++ [Event.loop false]

/-! ## Single-precision arithmetic: exactness -/

theorem ilog2_spec (fuel : Nat) : ∀ n, 1 ≤ n → n ≤ fuel →
    2 ^ ilog2 fuel n ≤ n ∧ n < 2 ^ (ilog2 fuel n + 1) := by
  induction fuel with
  | zero => intro n h1 h2; omega
  | succ f ih =>
    intro n h1 h2
    unfold ilog2
    by_cases h : n < 2
    · simp only [h, if_true]
      constructor <;> simp <;> omega
    · simp only [h, if_false]
      have := ih (n / 2) (by omega) (by omega)
      obtain ⟨ha, hb⟩ := this
      constructor
      · rw [pow_succ]; omega
      · rw [pow_succ]; omega

theorem fracLog2_le (p q E : Nat) (hp : 0 < p) (hq : 0 < q)
    (h : p < q * 2 ^ (E + 1)) : fracLog2 p q ≤ (E : Int) := by
  obtain ⟨hp1, hp2⟩ := ilog2_spec p p hp le_rfl
  obtain ⟨hq1, hq2⟩ := ilog2_spec q q hq le_rfl
  unfold fracLog2
  simp only
  by_contra hcon
  split_ifs at hcon with hc
  · have hl : ilog2 q q + E + 2 ≤ ilog2 p p := by omega
    have h1 : q * 2 ^ (E + 1) < 2 ^ (ilog2 q q + 1) * 2 ^ (E + 1) :=
      Nat.mul_lt_mul_of_pos_right hq2 (by positivity)
    have h2 : 2 ^ (ilog2 q q + 1) * 2 ^ (E + 1) ≤ 2 ^ ilog2 p p := by
      rw [← pow_add]; exact Nat.pow_le_pow_right (by norm_num) (by omega)
    omega
  · have hl : ilog2 q q + E + 1 ≤ ilog2 p p := by omega
    have h1 : q * 2 ^ (ilog2 q q + E + 1) ≤ q * 2 ^ ilog2 p p :=
      Nat.mul_le_mul_left q (Nat.pow_le_pow_right (by norm_num) hl)
    have h2 : q * 2 ^ (ilog2 q q + E + 1) = q * 2 ^ (E + 1) * 2 ^ ilog2 q q := by
      rw [pow_add, pow_add]; ring
    have h3 : p * 2 ^ ilog2 q q < q * 2 ^ (E + 1) * 2 ^ ilog2 q q :=
      Nat.mul_lt_mul_of_pos_right h (by positivity)
    omega

theorem roundNearestEven_of_dvd (p q : Nat) (hq : 0 < q) (h : q ∣ p) :
    roundNearestEven p q = p / q := by
  unfold roundNearestEven
  have : p % q = 0 := Nat.mod_eq_zero_of_dvd h
  simp [this, hq]

/-- Rounding to single precision is exact on a value below `2 ^ (E + 1)` that
is a multiple of `2 ^ (-k)`, whenever `E + k ≤ 23`. -/
theorem f32_round_exact (x : Frac) (hd : 0 < x.den) (E k : Nat)
    (hE : x.num < x.den * 2 ^ (E + 1)) (hEk : E + k ≤ 23)
    (hdvd : x.den ∣ x.num * 2 ^ k) :
    (f32_round x).num * x.den = x.num * (f32_round x).den ∧ 0 < (f32_round x).den := by
  unfold f32_round
  by_cases h0 : x.num = 0
  · simp [h0]
  · have hle := fracLog2_le x.num x.den E (Nat.pos_of_ne_zero h0) hd hE
    simp only [h0, if_false]
    have hs : (0 : Int) ≤ 23 - max (fracLog2 x.num x.den) (-126) := by omega
    simp only [hs, if_true]
    obtain ⟨S, hS⟩ := Int.eq_ofNat_of_zero_le hs
    rw [hS]
    simp only [Int.toNat_ofNat]
    have hkS : k ≤ S := by omega
    have hdvd2 : x.den ∣ x.num * 2 ^ S := by
      obtain ⟨c, hc⟩ := Nat.exists_eq_add_of_le hkS
      rw [hc, pow_add, ← mul_assoc]
      exact Dvd.dvd.mul_right hdvd _
    rw [roundNearestEven_of_dvd _ _ hd hdvd2]
    refine ⟨?_, by positivity⟩
    exact Nat.div_mul_cancel hdvd2

theorem CONVERSION_FACTOR_eq : CONVERSION_FACTOR = ⟨13516800, 16777216⟩ := by
  rfl

/-- The single-precision product `adc_value * CONVERSION_FACTOR` is the exact
rational `3300 * r / 4096` for a 12-bit reading. -/
theorem product_exact (r : Nat) (hr : r < 4096) :
    (f32_mul (f32_of_int r) CONVERSION_FACTOR).num * 4096
        = 3300 * r * (f32_mul (f32_of_int r) CONVERSION_FACTOR).den
      ∧ 0 < (f32_mul (f32_of_int r) CONVERSION_FACTOR).den := by
  obtain ⟨hA, hAd⟩ := f32_round_exact ⟨r, 1⟩ (by simp) 11 0 (by simp; omega) (by omega) (by simp)
  simp only [mul_one] at hA
  unfold f32_mul f32_of_int
  rw [CONVERSION_FACTOR_eq]
  set A := f32_round ⟨r, 1⟩ with hAdef
  obtain ⟨hP, hPd⟩ := f32_round_exact ⟨A.num * 13516800, A.den * 16777216⟩ (by simp; omega)
    11 10 (by
      have h := Nat.mul_le_mul_right A.den (show r ≤ 4095 by omega)
      simp only [hA]; norm_num; omega) (by omega)
    (by simp only [hA]; exact ⟨r * 825, by ring⟩)
  set P := f32_round ⟨A.num * 13516800, A.den * 16777216⟩ with hPdef
  simp only [hA] at hP
  refine ⟨?_, hPd⟩
  have : (P.num * 4096) * (A.den * 4096) = (3300 * r * P.den) * (A.den * 4096) := by
    nlinarith
  exact Nat.eq_of_mul_eq_mul_right (by positivity) this

/-- Closed form of the conversion on 12-bit readings. -/
theorem convert_eq (r : Nat) (hr : r < 4096) : convert r = (3300 * r + 2048) / 4096 := by
  unfold convert
  have hr' : r % 2 ^ 16 = r := Nat.mod_eq_of_lt (by omega)
  simp only [hr']
  obtain ⟨hP, hPd⟩ := product_exact r hr
  set P := f32_mul (f32_of_int r) CONVERSION_FACTOR with hPdef
  have hK : c_round P = (3300 * r + 2048) / 4096 := by
    unfold c_round
    apply Nat.div_eq_of_lt_le
    · have h1 : (3300 * r + 2048) / 4096 * 4096 ≤ 3300 * r + 2048 := Nat.div_mul_le_self _ _
      nlinarith
    · have h1 : 3300 * r + 2048 < ((3300 * r + 2048) / 4096 + 1) * 4096 := by
        have := Nat.lt_succ_self ((3300 * r + 2048) / 4096)
        omega
      nlinarith
  rw [hK]
  apply Nat.mod_eq_of_lt
  omega

/-! ## Decimal numerals -/

theorem decimal_of_lt_ten (n : Nat) (h : n < 10) : decimal n = [Nat.digitChar n] := by
  unfold decimal
  by_cases h0 : n = 0
  · subst h0; rfl
  · simp only [h0, if_false]
    rw [Nat.digits_of_lt 10 n h0 h]
    rfl

theorem decimal_of_ten_le (n : Nat) (h : 10 ≤ n) :
    decimal n = decimal (n / 10) ++ [Nat.digitChar (n % 10)] := by
  unfold decimal
  have h0 : n ≠ 0 := by omega
  have h1 : n / 10 ≠ 0 := by omega
  simp only [h0, h1, if_false]
  rw [Nat.digits_def' (by norm_num) (by omega)]
  simp

theorem toDigitsCore_eq (fuel : Nat) : ∀ n ds, n < fuel →
    Nat.toDigitsCore 10 fuel n ds = decimal n ++ ds := by
  induction fuel with
  | zero => intro n ds h; omega
  | succ f ih =>
    intro n ds h
    unfold Nat.toDigitsCore
    by_cases hq : n / 10 = 0
    · simp only [hq, if_true]
      rw [decimal_of_lt_ten n (by omega)]
      have : n % 10 = n := by omega
      simp [this]
    · simp only [hq, if_false]
      rw [ih (n / 10) _ (by omega), decimal_of_ten_le n (by omega)]
      simp

/-- What `%d` prints is the decimal numeral. -/
theorem sprintf_d_eq (n : Nat) : sprintf_d n = decimal n := by
  unfold sprintf_d Nat.toDigits
  rw [toDigitsCore_eq (n + 1) n [] (by omega)]
  simp

theorem decimal_length_le (d : Nat) : ∀ n, n < 10 ^ (d + 1) → (decimal n).length ≤ d + 1 := by
  induction d with
  | zero => intro n h; rw [decimal_of_lt_ten n (by simpa using h)]; simp
  | succ d ih =>
    intro n h
    by_cases h10 : n < 10
    · rw [decimal_of_lt_ten n h10]; simp
    · rw [decimal_of_ten_le n (by omega)]
      have := ih (n / 10) (by rw [pow_succ] at h; omega)
      simp; omega

theorem decimal_length_ge (d : Nat) : ∀ n, 10 ^ d ≤ n → d + 1 ≤ (decimal n).length := by
  induction d with
  | zero =>
    intro n _
    by_cases h10 : n < 10
    · rw [decimal_of_lt_ten n h10]; simp
    · rw [decimal_of_ten_le n (by omega)]; simp
  | succ d ih =>
    intro n h
    have hpos : 0 < 10 ^ d := by positivity
    rw [pow_succ] at h
    rw [decimal_of_ten_le n (by omega)]
    have := ih (n / 10) (by omega)
    simp; omega

theorem decimal_length_pos (n : Nat) : 1 ≤ (decimal n).length := by
  by_cases h10 : n < 10
  · rw [decimal_of_lt_ten n h10]; simp
  · rw [decimal_of_ten_le n (by omega)]; simp

theorem digitChar_isDigit : ∀ k < 10, (Nat.digitChar k).isDigit = true := by decide

theorem digitChar_value : ∀ k < 10, (Nat.digitChar k).toNat - 48 = k := by decide

theorem digitChar_ne_zero : ∀ k < 10, 1 ≤ k → Nat.digitChar k ≠ '0' := by decide

theorem decimal_isDigit (n : Nat) : ∀ c ∈ decimal n, c.isDigit = true := by
  induction n using Nat.strong_induction_on with
  | _ n ih =>
    by_cases h10 : n < 10
    · rw [decimal_of_lt_ten n h10]
      intro c hc
      simp only [List.mem_singleton] at hc
      subst hc
      exact digitChar_isDigit n h10
    · rw [decimal_of_ten_le n (by omega)]
      intro c hc
      rcases List.mem_append.mp hc with h | h
      · exact ih (n / 10) (by omega) c h
      · simp only [List.mem_singleton] at h
        subst h
        exact digitChar_isDigit _ (by omega)

theorem digits_value_append (xs : List Char) (c : Char) :
    digits_value (xs ++ [c]) = 10 * digits_value xs + (c.toNat - 48) := by
  unfold digits_value
  rw [List.foldl_append]
  rfl

theorem digits_value_decimal (n : Nat) : digits_value (decimal n) = n := by
  induction n using Nat.strong_induction_on with
  | _ n ih =>
    by_cases h10 : n < 10
    · rw [decimal_of_lt_ten n h10]
      have := digitChar_value n h10
      simp [digits_value, this]
    · rw [decimal_of_ten_le n (by omega), digits_value_append, ih (n / 10) (by omega),
        digitChar_value _ (by omega)]
      omega

/-- A numeral of a positive number does not start with `0`. -/
theorem decimal_head (n : Nat) (hn : 1 ≤ n) :
    ∃ d ds, decimal n = d :: ds ∧ d ≠ '0' := by
  induction n using Nat.strong_induction_on with
  | _ n ih =>
    by_cases h10 : n < 10
    · exact ⟨Nat.digitChar n, [], decimal_of_lt_ten n h10, digitChar_ne_zero n h10 hn⟩
    · obtain ⟨d, ds, hd, hne⟩ := ih (n / 10) (by omega) (by omega)
      exact ⟨d, ds ++ [Nat.digitChar (n % 10)], by
        rw [decimal_of_ten_le n (by omega), hd]; rfl, hne⟩

/-! ## `build_json`: the loops in closed form -/

theorem sizeof_five : sizeof_lit "0000," = 6 := rfl

theorem comma_length : (",".toList).length = 1 := rfl

theorem samples_acc_length_mono (N : Nat) (row : Nat → Nat) (n : Nat) :
    (samples_acc N row n).length ≤ (samples_acc N row (n + 1)).length := by
  simp [samples_acc]

theorem build_json_samples_loop (N : Nat) (row : Nat → Nat) (cap : Nat) :
    ∀ n str, (∀ i < n, row i ≤ 9999) →
      str.length + (samples_acc N row n).length + 1 ≤ cap →
      (List.range n).foldlM (fun str sampling_number => do
        let aux ← sprintf (sizeof_lit "0000,")
          (if sampling_number < N - 1 then sprintf_d (row sampling_number) ++ ",".toList
           else sprintf_d (row sampling_number))
        strcat cap str aux) str = some (str ++ samples_acc N row n) := by
  intro n
  induction n with
  | zero => intro str _ _; simp [samples_acc]
  | succ n ih =>
    intro str hrow hcap
    have hmono := samples_acc_length_mono N row n
    rw [List.range_succ, List.foldlM_append, ih str (fun i hi => hrow i (by omega)) (by omega)]
    have hlen : (decimal (row n)).length ≤ 4 :=
      decimal_length_le 3 (row n) (by have := hrow n (by omega); omega)
    simp only [samples_acc, List.length_append] at hcap
    simp only [Option.bind_eq_bind, Option.some_bind, List.foldlM_cons, List.foldlM_nil,
      sprintf_d_eq]
    by_cases hlast : n < N - 1
    · simp only [hlast, if_true] at hcap ⊢
      have h6 : (decimal (row n) ++ ",".toList).length + 1 ≤ sizeof_lit "0000," := by
        rw [sizeof_five, List.length_append, comma_length]; omega
      simp only [sprintf, h6, if_true, Option.some_bind, strcat, samples_acc, hlast]
      simp only [List.length_append, comma_length] at hcap ⊢
      rw [if_pos (by omega)]
      simp
    · simp only [hlast, if_false] at hcap ⊢
      have h6 : (decimal (row n)).length + 1 ≤ sizeof_lit "0000," := by
        rw [sizeof_five]; omega
      simp only [sprintf, h6, if_true, Option.some_bind, strcat, samples_acc, hlast]
      simp only [List.length_append] at hcap ⊢
      rw [if_pos (by omega)]
      simp

theorem build_json_samples_eq (N : Nat) (row : Nat → Nat) (cap : Nat) (str : List Char)
    (hrow : ∀ i < N, row i ≤ 9999)
    (hcap : str.length + (samples_acc N row N).length + 1 ≤ cap) :
    build_json_samples N row cap str = some (str ++ samples_acc N row N) :=
  build_json_samples_loop N row cap N str hrow hcap

theorem channels_acc_length_mono (C N : Nat) (buf : Nat → Nat → Nat) (n : Nat) :
    (channels_acc C N buf n).length ≤ (channels_acc C N buf (n + 1)).length := by
  simp [channels_acc]

theorem build_json_channels_loop (C N : Nat) (buf : Nat → Nat → Nat) (cap : Nat) :
    ∀ n str, n ≤ 10 → (∀ k < n, ∀ i < N, buf k i ≤ 9999) →
      str.length + (channels_acc C N buf n).length + 1 ≤ cap →
      (List.range n).foldlM (fun str channel => do
        let label ← sprintf 8 ("\"ch".toList ++ sprintf_d channel ++ "\":[".toList)
        let str ← strcat cap str label
        let str ← build_json_samples N (buf channel) cap str
        if channel < C - 1 then strcat cap str "],".toList
        else strcat cap str "]\x7d\n".toList) str
        = some (str ++ channels_acc C N buf n) := by
  intro n
  induction n with
  | zero => intro str _ _ _; simp [channels_acc]
  | succ n ih =>
    intro str hn hbuf hcap
    have hmono := channels_acc_length_mono C N buf n
    rw [List.range_succ, List.foldlM_append,
      ih str (by omega) (fun k hk => hbuf k (by omega)) (by omega)]
    have hlab : (decimal n).length = 1 := by
      rw [decimal_of_lt_ten n (by omega)]; rfl
    simp only [channels_acc, List.length_append] at hcap
    simp only [Option.bind_eq_bind, Option.some_bind, List.foldlM_cons, List.foldlM_nil,
      sprintf_d_eq]
    have h8 : ("\"ch".toList ++ decimal n ++ "\":[".toList).length + 1 ≤ 8 := by
      simp [hlab]
    simp only [sprintf, h8, if_true, Option.some_bind]
    have hc1 : (str ++ channels_acc C N buf n).length
        + ("\"ch".toList ++ decimal n ++ "\":[".toList).length + 1 ≤ cap := by
      simp only [List.length_append] at hcap ⊢; omega
    simp only [strcat, hc1, if_true, Option.some_bind]
    rw [build_json_samples_eq N (buf n) cap _ (hbuf n (by omega))
      (by simp only [List.length_append] at hcap ⊢; omega)]
    simp only [Option.some_bind]
    by_cases hlast : n < C - 1
    · simp only [hlast, if_true] at hcap ⊢
      rw [if_pos (by simp only [List.length_append] at hcap ⊢; omega)]
      simp [channels_acc, hlast]
    · simp only [hlast, if_false] at hcap ⊢
      rw [if_pos (by simp only [List.length_append] at hcap ⊢; omega)]
      simp [channels_acc, hlast]

theorem build_json_channels_eq (C N : Nat) (buf : Nat → Nat → Nat) (cap : Nat)
    (str : List Char) (hC : C ≤ 10) (hbuf : ∀ k < C, ∀ i < N, buf k i ≤ 9999)
    (hcap : str.length + (channels_acc C N buf C).length + 1 ≤ cap) :
    build_json_channels C N buf cap str = some (str ++ channels_acc C N buf C) :=
  build_json_channels_loop C N buf cap C str hC hbuf hcap

/-- With room for the whole text, `build_json` leaves in the destination the
opening brace followed by what the channel loop appends. -/
theorem build_json_acc (C N : Nat) (buf : Nat → Nat → Nat) (data : List Char) (cap : Nat)
    (hC : C ≤ 10) (hbuf : ∀ k < C, ∀ i < N, buf k i ≤ 9999)
    (hcap : (channels_acc C N buf C).length + 2 ≤ cap) :
    build_json C N buf true data cap
      = some ("\x7b".toList ++ channels_acc C N buf C, []) := by
  unfold build_json
  have hb : ("\x7b".toList).length = 1 := rfl
  have h1 : ("\x7b".toList).length + 1 ≤ cap := by rw [hb]; omega
  simp only [Bool.true_eq_false, if_false, strcpy, h1, if_true, Option.bind_eq_bind,
    Option.some_bind]
  rw [build_json_channels_eq C N buf cap _ hC hbuf (by rw [hb]; omega)]
  simp only [Option.some_bind]
  rw [if_pos (by rw [List.length_append, hb]; omega)]
  simp

/-! ## The accumulated text is the record; its length -/

theorem commaSep_cons_snoc (y : List Char) (L : List (List Char)) (x : List Char) :
    commaSep (y :: (L ++ [x])) = y ++ ",".toList ++ commaSep (L ++ [x]) := by
  cases L <;> rfl

theorem commaSep_snoc_comma (L : List (List Char)) (a b : List Char) :
    commaSep (L ++ [a ++ ",".toList ++ b]) = commaSep (L ++ [a] ++ [b]) := by
  induction L with
  | nil => rfl
  | cons y L ih =>
    rw [List.cons_append, commaSep_cons_snoc, ih, List.cons_append, List.cons_append,
      commaSep_cons_snoc]

theorem commaSep_snoc_append (L : List (List Char)) (a b : List Char) :
    commaSep (L ++ [a ++ b]) = commaSep (L ++ [a]) ++ b := by
  induction L with
  | nil => rfl
  | cons y L ih =>
    rw [List.cons_append, commaSep_cons_snoc, ih, List.cons_append, commaSep_cons_snoc]
    simp

theorem samples_acc_initial (N : Nat) (row : Nat → Nat) :
    ∀ m, m ≤ N - 1 → ∀ x : List Char,
      samples_acc N row m ++ x
        = commaSep ((List.range m).map (fun i => decimal (row i)) ++ [x]) := by
  intro m
  induction m with
  | zero => intro _ x; rfl
  | succ m ih =>
    intro hm x
    have hlt : m < N - 1 := by omega
    simp only [samples_acc, hlt, if_true]
    rw [List.append_assoc, ih (by omega), List.range_succ, List.map_append, List.map_singleton,
      ← commaSep_snoc_comma]

theorem samples_acc_full (N : Nat) (row : Nat → Nat) (hN : 1 ≤ N) :
    samples_acc N row N = commaSep ((List.range N).map (fun i => decimal (row i))) := by
  obtain ⟨m, rfl⟩ : ∃ m, N = m + 1 := ⟨N - 1, by omega⟩
  have hlt : ¬ (m < m + 1 - 1) := by omega
  simp only [samples_acc, hlt, if_false]
  rw [samples_acc_initial (m + 1) row m (by omega), List.range_succ, List.map_append,
    List.map_singleton]

theorem channel_chunk (N : Nat) (row : Nat → Nat) (k : Nat) (hN : 1 ≤ N) (tail : List Char) :
    ("\"ch".toList ++ decimal k ++ "\":[".toList) ++ samples_acc N row N
        ++ ("]".toList ++ tail)
      = member_text k ((List.range N).map row) ++ tail := by
  rw [samples_acc_full N row hN]
  unfold member_text
  simp [List.map_map, Function.comp_def]

theorem channels_acc_initial (C N : Nat) (buf : Nat → Nat → Nat) (hN : 1 ≤ N) :
    ∀ m, m ≤ C - 1 → ∀ x : List Char,
      channels_acc C N buf m ++ x
        = commaSep ((List.range m).map
            (fun k => member_text k ((List.range N).map (buf k))) ++ [x]) := by
  intro m
  induction m with
  | zero => intro _ x; rfl
  | succ m ih =>
    intro hm x
    have hlt : m < C - 1 := by omega
    simp only [channels_acc, hlt, if_true]
    have hchunk := channel_chunk N (buf m) m hN ",".toList
    have hsplit : "],".toList = "]".toList ++ ",".toList := rfl
    rw [hsplit]
    rw [List.append_assoc (channels_acc C N buf m), List.append_assoc (channels_acc C N buf m),
      hchunk, List.append_assoc, ih (by omega), List.range_succ, List.map_append,
      List.map_singleton, ← commaSep_snoc_comma]

/-- What the loops of `build_json` build is the record of the buffer. -/
theorem channels_acc_full (C N : Nat) (buf : Nat → Nat → Nat) (hC : 1 ≤ C) (hN : 1 ≤ N) :
    "\x7b".toList ++ channels_acc C N buf C = record_text C N buf := by
  obtain ⟨m, rfl⟩ : ∃ m, C = m + 1 := ⟨C - 1, by omega⟩
  have hlt : ¬ (m < m + 1 - 1) := by omega
  simp only [channels_acc, hlt, if_false]
  have hchunk := channel_chunk N (buf m) m hN "\x7d\n".toList
  have hsplit : "]\x7d\n".toList = "]".toList ++ "\x7d\n".toList := rfl
  rw [hsplit, List.append_assoc (channels_acc (m + 1) N buf m),
    List.append_assoc (channels_acc (m + 1) N buf m), hchunk,
    channels_acc_initial (m + 1) N buf hN m (by omega), commaSep_snoc_append]
  unfold record_text
  rw [List.range_succ, List.map_append, List.map_singleton]
  have hs2 : "\x7d\n".toList = "\x7d".toList ++ "\n".toList := rfl
  rw [hs2]
  simp only [List.append_assoc]

theorem commaSep_length (xs : List (List Char)) :
    (commaSep xs).length = (xs.map List.length).sum + (xs.length - 1) := by
  induction xs with
  | nil => rfl
  | cons x xs ih =>
    cases xs with
    | nil => simp [commaSep]
    | cons y ys =>
      simp only [commaSep, List.length_append, ih, comma_length]
      simp
      omega

theorem sum_map_range_const (n c : Nat) (f : Nat → Nat) (h : ∀ k < n, f k = c) :
    ((List.range n).map f).sum = n * c := by
  induction n with
  | zero => simp
  | succ n ih =>
    rw [List.range_succ, List.map_append, List.sum_append, ih (fun k hk => h k (by omega)),
      List.map_singleton, List.sum_singleton, h n (by omega)]
    ring

theorem sum_map_range_le (n c : Nat) (f : Nat → Nat) (h : ∀ k < n, f k ≤ c) :
    ((List.range n).map f).sum ≤ n * c := by
  induction n with
  | zero => simp
  | succ n ih =>
    rw [List.range_succ, List.map_append, List.sum_append, List.map_singleton,
      List.sum_singleton]
    have h1 := ih (fun k hk => h k (by omega))
    have h2 := h n (by omega)
    calc ((List.range n).map f).sum + f n ≤ n * c + c := by omega
      _ = (n + 1) * c := by ring

theorem sum_map_range_add (n : Nat) (f g : Nat → Nat) :
    ((List.range n).map (fun k => f k + g k)).sum
      = ((List.range n).map f).sum + ((List.range n).map g).sum := by
  induction n with
  | zero => simp
  | succ n ih =>
    simp only [List.range_succ, List.map_append, List.sum_append, List.map_singleton,
      List.sum_singleton, ih]
    omega

theorem member_text_length (N : Nat) (row : Nat → Nat) (k : Nat) (hk : k < 10) (hN : 1 ≤ N) :
    (member_text k ((List.range N).map row)).length
      = (7 + N) + ((List.range N).map fun i => (decimal (row i)).length).sum := by
  unfold member_text
  have hlab : (decimal k).length = 1 := by rw [decimal_of_lt_ten k hk]; rfl
  have h1 : ("\"ch".toList).length = 3 := rfl
  have h2 : ("\":".toList).length = 2 := rfl
  have h3 : ("[".toList).length = 1 := rfl
  have h4 : ("]".toList).length = 1 := rfl
  simp only [List.length_append, commaSep_length, h1, h2, h3, h4, hlab, List.map_map,
    List.length_map, List.length_range, Function.comp_def]
  omega

/-- The length of the record of a buffer with at most ten channels. -/
theorem record_text_length (C N : Nat) (buf : Nat → Nat → Nat) (hC : 1 ≤ C) (hC10 : C ≤ 10)
    (hN : 1 ≤ N) :
    (record_text C N buf).length = 2 + 8 * C + C * N + digit_count C N buf := by
  unfold record_text digit_count
  have h1 : ("\x7b".toList).length = 1 := rfl
  have h2 : ("\x7d".toList).length = 1 := rfl
  have h3 : ("\n".toList).length = 1 := rfl
  simp only [List.length_append, commaSep_length, h1, h2, h3, List.map_map, List.length_map,
    List.length_range]
  have hmem : (List.range C).map
      (List.length ∘ fun k => member_text k ((List.range N).map (buf k)))
      = (List.range C).map (fun k => (7 + N)
          + ((List.range N).map fun i => (decimal (buf k i)).length).sum) := by
    apply List.map_congr_left
    intro k hk
    exact member_text_length N (buf k) k (by have := List.mem_range.mp hk; omega) hN
  rw [hmem, sum_map_range_add, sum_map_range_const C (7 + N) (fun _ => 7 + N) (fun _ _ => rfl)]
  have : C * (7 + N) = 7 * C + C * N := by ring
  omega

theorem digit_count_le (C N : Nat) (buf : Nat → Nat → Nat)
    (hbuf : ∀ k < C, ∀ i < N, buf k i ≤ 9999) : digit_count C N buf ≤ 4 * (C * N) := by
  unfold digit_count
  have := sum_map_range_le C (N * 4)
    (fun k => ((List.range N).map fun i => (decimal (buf k i)).length).sum)
    (fun k hk => sum_map_range_le N 4 _ (fun i hi =>
      decimal_length_le 3 (buf k i) (by have := hbuf k hk i hi; omega)))
  calc _ ≤ C * (N * 4) := this
    _ = 4 * (C * N) := by ring

theorem digit_count_eq (C N : Nat) (buf : Nat → Nat → Nat)
    (hbuf : ∀ k < C, ∀ i < N, 1000 ≤ buf k i ∧ buf k i ≤ 9999) :
    digit_count C N buf = 4 * (C * N) := by
  unfold digit_count
  have := sum_map_range_const C (N * 4)
    (fun k => ((List.range N).map fun i => (decimal (buf k i)).length).sum)
    (fun k hk => sum_map_range_const N 4 _ (fun i hi => by
      have h := hbuf k hk i hi
      have h1 := decimal_length_le 3 (buf k i) (by omega)
      have h2 := decimal_length_ge 3 (buf k i) (by omega)
      omega))
  rw [this]; ring

theorem TOTAL_BYTES_TO_SEND_eq (C N : Nat) : TOTAL_BYTES_TO_SEND C N = 3 + 8 * C + 5 * (C * N) := by
  have h1 : sizeof_lit "\x7b\x7d\n" = 4 := rfl
  have h2 : sizeof_lit "\"ch0\":[]," = 10 := rfl
  have h3 : sizeof_lit "" = 1 := rfl
  unfold TOTAL_BYTES_TO_SEND
  rw [h1, h2, h3, sizeof_five]
  have : (6 - 1) * N * C = 5 * (C * N) := by ring
  omega

/-- With at most ten channels, samples of at most four digits and at least
`TOTAL_BYTES_TO_SEND` bytes, `build_json` writes the record. -/
theorem build_json_eq (C N : Nat) (buf : Nat → Nat → Nat) (data : List Char) (cap : Nat)
    (hC : 1 ≤ C) (hC10 : C ≤ 10) (hN : 1 ≤ N) (hbuf : ∀ k < C, ∀ i < N, buf k i ≤ 9999)
    (hcap : TOTAL_BYTES_TO_SEND C N ≤ cap) :
    build_json C N buf true data cap = some (record_text C N buf, []) := by
  have hlen := record_text_length C N buf hC hC10 hN
  have hd := digit_count_le C N buf hbuf
  rw [TOTAL_BYTES_TO_SEND_eq] at hcap
  rw [← channels_acc_full C N buf hC hN] at hlen ⊢
  have hb : ("\x7b".toList).length = 1 := rfl
  rw [List.length_append, hb] at hlen
  exact build_json_acc C N buf data cap hC10 hbuf (by omega)

/-! ## Reading back what was written -/

theorem take_digits_append (ds : List Char) (hds : ∀ c ∈ ds, c.isDigit = true)
    (c : Char) (rest : List Char) (hc : c.isDigit = false) :
    take_digits (ds ++ c :: rest) = (ds, c :: rest) := by
  induction ds with
  | nil => simp [take_digits, hc]
  | cons d ds ih =>
    have hd : d.isDigit = true := hds d (List.mem_cons_self _ _)
    have := ih (fun x hx => hds x (List.mem_cons_of_mem _ hx))
    simp [take_digits, hd, this]

theorem decimal_no_leading_zero (n : Nat) (d : Char) (ds : List Char)
    (h : decimal n = d :: ds) : ¬ (d = '0' ∧ ds ≠ []) := by
  rintro ⟨hd, hds⟩
  by_cases hn : n = 0
  · subst hn
    have : decimal 0 = ['0'] := rfl
    rw [this] at h
    simp only [List.cons.injEq] at h
    exact hds h.2.symm
  · obtain ⟨d', ds', h', hne⟩ := decimal_head n (by omega)
    rw [h'] at h
    simp only [List.cons.injEq] at h
    exact hne (h.1.trans hd)

theorem parse_ints_step (fuel v : Nat) (c : Char) (rest : List Char)
    (hc : c.isDigit = false) :
    parse_ints (fuel + 1) (decimal v ++ c :: rest)
      = if c = ',' then (parse_ints fuel rest).map fun r => (v :: r.1, r.2)
        else some ([v], c :: rest) := by
  obtain ⟨d, ds, hd⟩ : ∃ d ds, decimal v = d :: ds := by
    have := decimal_length_pos v
    cases h : decimal v with
    | nil => rw [h] at this; simp at this
    | cons d ds => exact ⟨d, ds, rfl⟩
  have hz := decimal_no_leading_zero v d ds hd
  have hval : digits_value (d :: ds) = v := by rw [← hd]; exact digits_value_decimal v
  have htake := take_digits_append (decimal v) (decimal_isDigit v) c rest hc
  rw [hd] at htake
  conv_lhs => unfold parse_ints
  rw [hd, htake]
  simp only [hz, if_false, hval]

theorem length_le_sum_decimal (vs : List Nat) :
    vs.length ≤ ((vs.map decimal).map List.length).sum := by
  induction vs with
  | nil => simp
  | cons v vs ih =>
    have := decimal_length_pos v
    simp only [List.map_cons, List.sum_cons, List.length_cons]
    omega

theorem parse_ints_commaSep (vs : List Nat) (hvs : vs ≠ []) :
    ∀ fuel, vs.length ≤ fuel → ∀ (c : Char) (rest : List Char),
      c.isDigit = false → c ≠ ',' →
      parse_ints fuel (commaSep (vs.map decimal) ++ c :: rest) = some (vs, c :: rest) := by
  induction vs with
  | nil => exact absurd rfl hvs
  | cons v vs ih =>
    intro fuel hfuel c rest hc hcomma
    obtain ⟨f, rfl⟩ : ∃ f, fuel = f + 1 := ⟨fuel - 1, by simp at hfuel; omega⟩
    cases vs with
    | nil =>
      simp only [List.map_cons, List.map_nil, commaSep]
      rw [parse_ints_step f v c rest hc]
      simp [hcomma]
    | cons w ws =>
      have hcs : commaSep ((v :: w :: ws).map decimal) ++ c :: rest
          = decimal v ++ ',' :: (commaSep ((w :: ws).map decimal) ++ c :: rest) := by
        simp only [List.map_cons, commaSep]
        have : ",".toList = [','] := rfl
        rw [this]
        simp
      rw [hcs, parse_ints_step f v ',' _ (by decide)]
      rw [if_pos rfl, ih (by simp) f (by simp at hfuel ⊢; omega) c rest hc hcomma]
      rfl

theorem parse_array_text (vs : List Nat) (hvs : vs ≠ []) (rest : List Char) :
    parse_array ("[".toList ++ commaSep (vs.map decimal) ++ "]".toList ++ rest)
      = some (vs, rest) := by
  have h1 : "[".toList ++ commaSep (vs.map decimal) ++ "]".toList ++ rest
      = '[' :: (commaSep (vs.map decimal) ++ ']' :: rest) := by
    have a : "[".toList = ['['] := rfl
    have b : "]".toList = [']'] := rfl
    rw [a, b]; simp
  rw [h1]
  unfold parse_array
  simp only [if_true]
  rw [parse_ints_commaSep vs hvs _ (by
    have h := length_le_sum_decimal vs
    rw [List.length_append, commaSep_length]
    omega) ']' rest (by decide) (by decide)]
  simp

theorem dropWhile_quote (p : List Char) (hp : ∀ c ∈ p, c ≠ '"') (X : List Char) :
    (p ++ '"' :: X).dropWhile (fun x => x != '"') = '"' :: X := by
  induction p with
  | nil => simp [List.dropWhile]
  | cons a p ih =>
    have ha : a ≠ '"' := hp a (List.mem_cons_self _ _)
    simp only [List.cons_append, List.dropWhile, bne_iff_ne, ne_eq, ha, not_false_eq_true,
      decide_True]
    have hb : (a != '"') = true := by simp [ha]
    simp only [hb]
    exact ih (fun x hx => hp x (List.mem_cons_of_mem _ hx))

theorem takeWhile_quote (p : List Char) (hp : ∀ c ∈ p, c ≠ '"') (X : List Char) :
    (p ++ '"' :: X).takeWhile (fun x => x != '"') = p := by
  induction p with
  | nil => simp [List.takeWhile]
  | cons a p ih =>
    have ha : a ≠ '"' := hp a (List.mem_cons_self _ _)
    have hb : (a != '"') = true := by simp [ha]
    rw [List.cons_append, List.takeWhile_cons]
    simp only [hb, if_true]
    rw [ih (fun x hx => hp x (List.mem_cons_of_mem _ hx))]

theorem key_no_quote (k : Nat) : ∀ c ∈ "ch".toList ++ decimal k, c ≠ '"' := by
  intro c hc
  rcases List.mem_append.mp hc with h | h
  · have : "ch".toList = ['c', 'h'] := rfl
    rw [this] at h
    simp only [List.mem_cons, List.mem_singleton, List.not_mem_nil, or_false] at h
    rcases h with h | h <;> subst h <;> decide
  · have hd := decimal_isDigit k c h
    intro heq
    subst heq
    exact absurd hd (by decide)

theorem parse_member_text (k : Nat) (vs : List Nat) (hvs : vs ≠ []) (rest : List Char) :
    parse_member (member_text k vs ++ rest)
      = some (("ch".toList ++ decimal k, vs), rest) := by
  have h1 : member_text k vs ++ rest
      = '"' :: (("ch".toList ++ decimal k) ++ '"' :: ':' ::
          ("[".toList ++ commaSep (vs.map decimal) ++ "]".toList ++ rest)) := by
    unfold member_text
    have a : "\"ch".toList = '"' :: "ch".toList := rfl
    have b : "\":".toList = ['"', ':'] := rfl
    rw [a, b]; simp
  rw [h1]
  unfold parse_member
  simp only [if_true]
  rw [dropWhile_quote _ (key_no_quote k), takeWhile_quote _ (key_no_quote k)]
  simp only [if_true]
  rw [parse_array_text vs hvs rest]
  rfl

theorem parse_members_commaSep (ms : List (Nat × List Nat)) (hms : ms ≠ [])
    (hvs : ∀ m ∈ ms, m.2 ≠ []) :
    ∀ fuel, ms.length ≤ fuel → ∀ (c : Char) (rest : List Char), c ≠ ',' →
      parse_members fuel (commaSep (ms.map fun m => member_text m.1 m.2) ++ c :: rest)
        = some (ms.map (fun m => ("ch".toList ++ decimal m.1, m.2)), c :: rest) := by
  induction ms with
  | nil => exact absurd rfl hms
  | cons m ms ih =>
    intro fuel hfuel c rest hcomma
    obtain ⟨f, rfl⟩ : ∃ f, fuel = f + 1 := ⟨fuel - 1, by simp at hfuel; omega⟩
    have hm : m.2 ≠ [] := hvs m (List.mem_cons_self _ _)
    cases ms with
    | nil =>
      simp only [List.map_cons, List.map_nil, commaSep]
      unfold parse_members
      rw [parse_member_text m.1 m.2 hm]
      simp [hcomma]
    | cons w ws =>
      have hcs : commaSep ((m :: w :: ws).map fun m => member_text m.1 m.2) ++ c :: rest
          = member_text m.1 m.2 ++ ',' ::
              (commaSep ((w :: ws).map fun m => member_text m.1 m.2) ++ c :: rest) := by
        simp only [List.map_cons, commaSep]
        have : ",".toList = [','] := rfl
        rw [this]
        simp
      rw [hcs]
      unfold parse_members
      rw [parse_member_text m.1 m.2 hm]
      simp only [if_true]
      rw [ih (by simp) (fun x hx => hvs x (List.mem_cons_of_mem _ hx)) f
        (by simp at hfuel ⊢; omega) c rest hcomma]
      rfl

theorem length_le_sum_members (ms : List (Nat × List Nat)) :
    ms.length ≤ ((ms.map fun m => member_text m.1 m.2).map List.length).sum := by
  induction ms with
  | nil => simp
  | cons m ms ih =>
    have : 1 ≤ (member_text m.1 m.2).length := by
      unfold member_text
      have a : ("\"ch".toList).length = 3 := rfl
      simp only [List.length_append, a]
      omega
    simp only [List.map_cons, List.sum_cons, List.length_cons]
    omega

/-- Reading the record of a buffer gives back the buffer, channel by channel
and tick by tick. -/
theorem parse_record_record_text (C N : Nat) (buf : Nat → Nat → Nat) (hC : 1 ≤ C)
    (hN : 1 ≤ N) : parse_record (record_text C N buf) = some (buffer_map C N buf) := by
  let ms : List (Nat × List Nat) := (List.range C).map fun k => (k, (List.range N).map (buf k))
  have hms : ms ≠ [] := by
    intro h
    have := congrArg List.length h
    simp [ms] at this
    omega
  have hvs : ∀ m ∈ ms, m.2 ≠ [] := by
    intro m hm
    simp only [ms, List.mem_map, List.mem_range] at hm
    obtain ⟨k, _, rfl⟩ := hm
    intro h
    have := congrArg List.length h
    simp at this
    omega
  have htext : record_text C N buf
      = Char.ofNat 123 :: (commaSep (ms.map fun m => member_text m.1 m.2)
          ++ Char.ofNat 125 :: ['\n']) := by
    unfold record_text
    have a : "\x7b".toList = [Char.ofNat 123] := rfl
    have b : "\x7d".toList = [Char.ofNat 125] := rfl
    have c : "\n".toList = ['\n'] := rfl
    rw [a, b, c]
    simp [ms, List.map_map, Function.comp_def]
  have hmap : ms.map (fun m => ("ch".toList ++ decimal m.1, m.2)) = buffer_map C N buf := by
    simp [ms, buffer_map, List.map_map, Function.comp_def]
  rw [htext]
  unfold parse_record
  simp only [if_true]
  rw [parse_members_commaSep ms hms hvs _ (by
    have h := length_le_sum_members ms
    rw [List.length_append, commaSep_length]
    omega) (Char.ofNat 125) ['\n'] (by decide)]
  rw [hmap]
  simp

/-! ## `read_adc` in closed form -/

theorem sampled_zero (adc : Nat → Nat) (s : State) : sampled adc s 0 = s := by
  cases s
  simp [sampled]

theorem read_adc_channels_loop (C N : Nat) (adc : Nat → Nat) (s : State)
    (ht : s.sampling_count < N) :
    ∀ n, n ≤ C →
      (List.range n).foldlM (fun s channel => do
        let s := { s with adc_selected := channel }
        let adc_value := adc s.adc_selected
        let s := { s with adc_reads := s.adc_reads ++ [s.adc_selected] }
        let buf ← store C N s.values_mv channel s.sampling_count (convert adc_value)
        some { s with values_mv := buf }) s = some (sampled adc s n) := by
  intro n
  induction n with
  | zero => intro _; simp [sampled_zero]
  | succ n ih =>
    intro hn
    rw [List.range_succ, List.foldlM_append, ih (by omega)]
    have hst : n < C ∧ (sampled adc s n).sampling_count < N := ⟨by omega, ht⟩
    simp only [Option.bind_eq_bind, Option.some_bind, List.foldlM_cons, List.foldlM_nil, store,
      hst, and_self, if_true, Option.pure_def]
    congr 1
    simp only [sampled, List.range_succ, List.append_assoc, Nat.add_sub_cancel,
      Nat.succ_ne_zero, if_false]
    congr 1
    funext c t
    by_cases h1 : c = n
    · subst h1
      by_cases h2 : t = s.sampling_count <;> simp [h2]
    · have : c < n + 1 ↔ c < n := by omega
      simp [h1, this]

theorem read_adc_channels_eq (C N : Nat) (adc : Nat → Nat) (s : State)
    (ht : s.sampling_count < N) :
    read_adc_channels C N adc s = some (sampled adc s C) :=
  read_adc_channels_loop C N adc s ht C le_rfl

/-- A sampling invocation of `read_adc`, in closed form. -/
theorem read_adc_sampling (C N : Nat) (adc : Nat → Nat) (s : State)
    (ht : s.sampling_count < N) :
    read_adc C N adc s
      = some ({ sampled adc s C with sampling_count := s.sampling_count + 1 }, true) := by
  unfold read_adc
  have : ¬ (s.sampling_count ≥ N) := by omega
  simp only [this, if_false]
  rw [read_adc_channels_eq C N adc s ht]
  rfl

/-- The terminal invocation of `read_adc`, in closed form. -/
theorem read_adc_terminal (C N : Nat) (adc : Nat → Nat) (s : State)
    (ht : N ≤ s.sampling_count) :
    read_adc C N adc s
      = some ({ s with sampling_done := true, timer_armed := false, sampling_count := 0 },
          true) := by
  unfold read_adc
  simp only [ge_iff_le, ht, if_true]

theorem invocations_append (C N : Nat) (l1 l2 : List (Nat → Nat)) :
    ∀ s, invocations C N (l1 ++ l2) s = (invocations C N l1 s).bind (invocations C N l2) := by
  induction l1 with
  | nil => intro s; rfl
  | cons a l1 ih =>
    intro s
    simp only [List.cons_append, invocations]
    cases h : read_adc C N a s with
    | none => rfl
    | some r => simp only [Option.bind_eq_bind, Option.some_bind]; exact ih r.1

/-- While the window is not full every invocation samples: the flag and the
timer are left alone, the counter counts the invocations, and tick `t` of the
window holds the conversions of the readings of invocation `t`. -/
theorem invocations_sampling (C N : Nat) (adcs : List (Nat → Nat)) :
    ∀ s : State, s.sampling_count + adcs.length ≤ N →
      ∃ s', invocations C N adcs s = some s'
        ∧ s'.sampling_done = s.sampling_done
        ∧ s'.timer_armed = s.timer_armed
        ∧ s'.sampling_count = s.sampling_count + adcs.length
        ∧ ∀ c t, s'.values_mv c t =
            if c < C ∧ s.sampling_count ≤ t ∧ t < s.sampling_count + adcs.length then
              convert (adcs.getD (t - s.sampling_count) (fun _ => 0) c)
            else s.values_mv c t := by
  induction adcs with
  | nil =>
    intro s _
    refine ⟨s, rfl, rfl, rfl, rfl, ?_⟩
    intro c t
    have : ¬ (c < C ∧ s.sampling_count ≤ t ∧ t < s.sampling_count + ([] : List (Nat → Nat)).length) := by
      simp only [List.length_nil]; omega
    rw [if_neg this]
  | cons adc rest ih =>
    intro s hlen
    simp only [List.length_cons] at hlen
    have ht : s.sampling_count < N := by omega
    obtain ⟨s', hrun, hdone, htimer, hcount, hval⟩ :=
      ih { sampled adc s C with sampling_count := s.sampling_count + 1 } (by
        show s.sampling_count + 1 + rest.length ≤ N
        omega)
    refine ⟨s', ?_, hdone, htimer, ?_, ?_⟩
    · simp only [invocations, read_adc_sampling C N adc s ht, Option.bind_eq_bind,
        Option.some_bind]
      exact hrun
    · rw [hcount]; show s.sampling_count + 1 + rest.length = _
      simp only [List.length_cons]; omega
    · intro c t
      rw [hval c t]
      show (if c < C ∧ s.sampling_count + 1 ≤ t ∧ t < s.sampling_count + 1 + rest.length then _
        else (if c < C ∧ t = s.sampling_count then convert (adc c) else s.values_mv c t)) = _
      simp only [List.length_cons]
      by_cases hc : c < C
      · by_cases h1 : t = s.sampling_count
        · subst h1
          have e1 : ¬ (c < C ∧ s.sampling_count + 1 ≤ s.sampling_count
              ∧ s.sampling_count < s.sampling_count + 1 + rest.length) := by omega
          have e2 : c < C ∧ s.sampling_count ≤ s.sampling_count
              ∧ s.sampling_count < s.sampling_count + (rest.length + 1) := by omega
          rw [if_neg e1, if_pos ⟨hc, rfl⟩, if_pos e2]
          simp
        · by_cases h2 : s.sampling_count + 1 ≤ t ∧ t < s.sampling_count + 1 + rest.length
          · have e1 : c < C ∧ s.sampling_count + 1 ≤ t
                ∧ t < s.sampling_count + 1 + rest.length := ⟨hc, h2⟩
            have e2 : c < C ∧ s.sampling_count ≤ t
                ∧ t < s.sampling_count + (rest.length + 1) := by omega
            rw [if_pos e1, if_pos e2]
            obtain ⟨j, hj⟩ : ∃ j, t - s.sampling_count = j + 1 :=
              ⟨t - s.sampling_count - 1, by omega⟩
            have hj' : t - (s.sampling_count + 1) = j := by omega
            rw [hj, hj']
            rfl
          · have e1 : ¬ (c < C ∧ s.sampling_count + 1 ≤ t
                ∧ t < s.sampling_count + 1 + rest.length) := fun h => h2 h.2
            have e2 : ¬ (c < C ∧ s.sampling_count ≤ t
                ∧ t < s.sampling_count + (rest.length + 1)) := by omega
            have e3 : ¬ (c < C ∧ t = s.sampling_count) := fun h => h1 h.2
            rw [if_neg e1, if_neg e2, if_neg e3]
      · have e1 : ¬ (c < C ∧ s.sampling_count + 1 ≤ t
            ∧ t < s.sampling_count + 1 + rest.length) := fun h => hc h.1
        have e2 : ¬ (c < C ∧ s.sampling_count ≤ t
            ∧ t < s.sampling_count + (rest.length + 1)) := fun h => hc h.1
        have e3 : ¬ (c < C ∧ t = s.sampling_count) := fun h => hc h.1
        rw [if_neg e1, if_neg e2, if_neg e3]

/-! ## The encoder -/

theorem record_text_congr (C N : Nat) (buf buf' : Nat → Nat → Nat)
    (h : ∀ k < C, ∀ i < N, buf k i = buf' k i) : record_text C N buf = record_text C N buf' := by
  have hm : (List.range C).map (fun k => member_text k ((List.range N).map (buf k)))
      = (List.range C).map (fun k => member_text k ((List.range N).map (buf' k))) := by
    apply List.map_congr_left
    intro k hk
    congr 1
    apply List.map_congr_left
    intro i hi
    exact h k (List.mem_range.mp hk) i (List.mem_range.mp hi)
  unfold record_text
  rw [hm]

theorem buffer_map_inj (C N : Nat) (buf buf' : Nat → Nat → Nat)
    (h : buffer_map C N buf' = buffer_map C N buf) : ∀ k < C, ∀ i < N, buf' k i = buf k i := by
  intro k hk i hi
  unfold buffer_map at h
  have h1 := (List.map_inj_left.mp h) k (List.mem_range.mpr hk)
  simp only [Prod.mk.injEq, true_and] at h1
  exact (List.map_inj_left.mp h1) i (List.mem_range.mpr hi)

/-- C1: for a buffer of `C` channels (one to ten, the labels `label[8]` can
hold) by `N ≥ 1` ticks whose samples are at most 9999, `build_json` writes to
the destination exactly the record text: an opening brace, the members
`"ch{k}":[v_0,...,v_{N-1}]` in ascending channel order separated by single
commas, a closing brace and a newline, where each `v_i` is the decimal
numeral of `values_mv[k][i]` in ascending tick order. The numerals consist
of digits only, have no leading zero and denote the stored sample. -/
theorem build_json_writes_record (C N : Nat) (values_mv : Nat → Nat → Nat) (data : List Char)
    (hC : 1 ≤ C) (hC10 : C ≤ 10) (hN : 1 ≤ N)
    (hbuf : ∀ k < C, ∀ i < N, values_mv k i ≤ 9999) :
    build_json C N values_mv true data (TOTAL_BYTES_TO_SEND C N)
        = some (record_text C N values_mv, [])
      ∧ ∀ v : Nat, (∀ c ∈ decimal v, c.isDigit = true)
          ∧ digits_value (decimal v) = v
          ∧ (∀ d ds, decimal v = d :: ds → ¬ (d = '0' ∧ ds ≠ [])) :=
  ⟨build_json_eq C N values_mv data _ hC hC10 hN hbuf le_rfl,
    fun v => ⟨decimal_isDigit v, digits_value_decimal v, decimal_no_leading_zero v⟩⟩

theorem build_json_writes_record_witness :
    (1 ≤ 2 ∧ 2 ≤ 10 ∧ 1 ≤ 3 ∧ ∀ k < 2, ∀ i < 3, sample_buffer k i ≤ 9999)
      ∧ (build_json 2 3 sample_buffer true [] (TOTAL_BYTES_TO_SEND 2 3)
            = some (record_text 2 3 sample_buffer, [])
          ∧ ∀ v : Nat, (∀ c ∈ decimal v, c.isDigit = true)
              ∧ digits_value (decimal v) = v
              ∧ (∀ d ds, decimal v = d :: ds → ¬ (d = '0' ∧ ds ≠ []))) :=
  ⟨by decide, build_json_writes_record 2 3 sample_buffer [] (by decide) (by decide)
    (by decide) (by decide)⟩

/-- C2: round trip. For a buffer of one to ten channels by `N ≥ 1` ticks
whose samples fit four digits, reading the text `build_json` produces as a map
from channel label to integer sequence gives exactly the keys `ch0` ..
`ch{C-1}`, in order, with `values_mv[k][i]` as the `i`-th integer under
`ch{k}`; hence two such buffers with the same text agree on every cell. -/
theorem build_json_round_trip (C N : Nat) (values_mv : Nat → Nat → Nat) (data : List Char)
    (hC : 1 ≤ C) (hC10 : C ≤ 10) (hN : 1 ≤ N)
    (hbuf : ∀ k < C, ∀ i < N, values_mv k i ≤ 9999) :
    (∃ text, build_json C N values_mv true data (TOTAL_BYTES_TO_SEND C N) = some (text, [])
        ∧ parse_record text = some (buffer_map C N values_mv))
      ∧ ∀ other : Nat → Nat → Nat, (∀ k < C, ∀ i < N, other k i ≤ 9999) →
          build_json C N other true data (TOTAL_BYTES_TO_SEND C N)
            = build_json C N values_mv true data (TOTAL_BYTES_TO_SEND C N) →
          ∀ k < C, ∀ i < N, other k i = values_mv k i := by
  have hb := build_json_eq C N values_mv data _ hC hC10 hN hbuf le_rfl
  refine ⟨⟨record_text C N values_mv, hb, parse_record_record_text C N values_mv hC hN⟩, ?_⟩
  intro other hother heq
  rw [hb, build_json_eq C N other data _ hC hC10 hN hother le_rfl] at heq
  have htext : record_text C N other = record_text C N values_mv := by
    simpa using heq
  have hparse := parse_record_record_text C N other hC hN
  rw [htext, parse_record_record_text C N values_mv hC hN] at hparse
  exact buffer_map_inj C N values_mv other (Option.some.inj hparse).symm

theorem build_json_round_trip_witness :
    (1 ≤ 2 ∧ 2 ≤ 10 ∧ 1 ≤ 3 ∧ ∀ k < 2, ∀ i < 3, sample_buffer k i ≤ 9999)
      ∧ ((∃ text, build_json 2 3 sample_buffer true [] (TOTAL_BYTES_TO_SEND 2 3)
              = some (text, [])
            ∧ parse_record text = some (buffer_map 2 3 sample_buffer))
          ∧ ∀ other : Nat → Nat → Nat, (∀ k < 2, ∀ i < 3, other k i ≤ 9999) →
              build_json 2 3 other true [] (TOTAL_BYTES_TO_SEND 2 3)
                = build_json 2 3 sample_buffer true [] (TOTAL_BYTES_TO_SEND 2 3) →
              ∀ k < 2, ∀ i < 3, other k i = sample_buffer k i) :=
  ⟨by decide, build_json_round_trip 2 3 sample_buffer [] (by decide) (by decide)
    (by decide) (by decide)⟩

set_option maxRecDepth 100000 in
/-- C3, as the claim states it, fails: the one-channel, one-tick buffer
holding `0` gives the record `{"ch0":[0]}` and a newline, 13 bytes with its
NUL, while the precomputed size is 16; and with eleven channels the label of
channel 10 does not fit `label[8]`. -/
theorem record_size_counterexample :
    (build_json 1 1 (fun _ _ => 0) true [] (TOTAL_BYTES_TO_SEND 1 1)).map
        (fun r => r.1.length + 1) = some 13
      ∧ TOTAL_BYTES_TO_SEND 1 1 = 16
      ∧ build_json 11 1 (fun _ _ => 1000) true [] (TOTAL_BYTES_TO_SEND 11 1) = none :=
  ⟨by rfl, by rfl, by rfl⟩

/-- C3, amended: for one to ten channels, `N ≥ 1` ticks and samples of at
most four digits, the record `build_json` produces, with its terminating
NUL, never exceeds `TOTAL_BYTES_TO_SEND` (no truncation), and has exactly that
many bytes when every sample has four digits (1000 to 9999). -/
theorem record_size_within_budget (C N : Nat) (values_mv : Nat → Nat → Nat)
    (data : List Char) (hC : 1 ≤ C) (hC10 : C ≤ 10) (hN : 1 ≤ N)
    (hbuf : ∀ k < C, ∀ i < N, values_mv k i ≤ 9999) :
    ∃ text, build_json C N values_mv true data (TOTAL_BYTES_TO_SEND C N) = some (text, [])
      ∧ text.length + 1 ≤ TOTAL_BYTES_TO_SEND C N
      ∧ ((∀ k < C, ∀ i < N, 1000 ≤ values_mv k i) →
          text.length + 1 = TOTAL_BYTES_TO_SEND C N) := by
  refine ⟨record_text C N values_mv, build_json_eq C N values_mv data _ hC hC10 hN hbuf le_rfl,
    ?_, ?_⟩
  · rw [record_text_length C N values_mv hC hC10 hN, TOTAL_BYTES_TO_SEND_eq]
    have := digit_count_le C N values_mv hbuf
    omega
  · intro hfull
    rw [record_text_length C N values_mv hC hC10 hN, TOTAL_BYTES_TO_SEND_eq,
      digit_count_eq C N values_mv (fun k hk i hi => ⟨hfull k hk i hi, hbuf k hk i hi⟩)]
    omega

theorem record_size_within_budget_witness :
    (1 ≤ 2 ∧ 2 ≤ 10 ∧ 1 ≤ 3 ∧ ∀ k < 2, ∀ i < 3, sample_buffer k i ≤ 9999)
      ∧ ∃ text, build_json 2 3 sample_buffer true [] (TOTAL_BYTES_TO_SEND 2 3)
            = some (text, [])
          ∧ text.length + 1 ≤ TOTAL_BYTES_TO_SEND 2 3
          ∧ ((∀ k < 2, ∀ i < 3, 1000 ≤ sample_buffer k i) →
              text.length + 1 = TOTAL_BYTES_TO_SEND 2 3) :=
  ⟨by decide, record_size_within_budget 2 3 sample_buffer [] (by decide) (by decide)
    (by decide) (by decide)⟩

/-! ## The acquisition driver -/

/-- C4, as the claim states it, fails: in the source's configuration (4
channels, 1125 ticks), after exactly 1125 invocations following
`start_sampling()` the completion flag is still false and the tick counter
is 1125, not 0. -/
theorem window_completion_counterexample :
    (invocations referenceChannels referenceSamples
        (List.replicate referenceSamples (fun _ => 0))
        (start_sampling (reset_state []))).map (fun s => (s.sampling_done, s.sampling_count))
      = some (false, 1125) := by
  obtain ⟨s', hrun, hdone, _, hcount, _⟩ :=
    invocations_sampling referenceChannels referenceSamples
      (List.replicate referenceSamples (fun _ => 0)) (start_sampling (reset_state []))
      (by rw [List.length_replicate]; exact le_of_eq (Nat.zero_add _))
  rw [hrun, Option.map_some', hdone, hcount, List.length_replicate]
  rfl

/-- C4, amended: starting right after `start_sampling()` with the tick
counter at 0, after exactly `N + 1` invocations of `read_adc` the completion
flag is true and the tick counter is 0; after any `n ≤ N` invocations the
flag is still false and the counter is `n`. -/
theorem window_completion (C N : Nat) (adcs : List (Nat → Nat)) (s : State)
    (h0 : s.sampling_count = 0) (hlen : adcs.length = N + 1) :
    (∀ n ≤ N, ∃ s', invocations C N (adcs.take n) (start_sampling s) = some s'
        ∧ s'.sampling_done = false ∧ s'.sampling_count = n)
      ∧ ∃ s', invocations C N adcs (start_sampling s) = some s'
          ∧ s'.sampling_done = true ∧ s'.sampling_count = 0 := by
  have hpre : ∀ n ≤ N, ∃ s', invocations C N (adcs.take n) (start_sampling s) = some s'
      ∧ s'.sampling_done = false ∧ s'.sampling_count = n := by
    intro n hn
    have hl : (adcs.take n).length = n := by rw [List.length_take]; omega
    obtain ⟨s', hrun, hdone, _, hcount, _⟩ :=
      invocations_sampling C N (adcs.take n) (start_sampling s) (by
        rw [hl]; show s.sampling_count + n ≤ N; omega)
    refine ⟨s', hrun, hdone, ?_⟩
    rw [hcount, hl]; show s.sampling_count + n = n; omega
  refine ⟨hpre, ?_⟩
  obtain ⟨s1, hrun1, _, hcount1⟩ := hpre N le_rfl
  obtain ⟨last, hlast⟩ : ∃ last, adcs = adcs.take N ++ [last] := by
    have hne : adcs.drop N ≠ [] := by
      intro h
      have := congrArg List.length h
      simp at this; omega
    obtain ⟨a, rest, hd⟩ := List.exists_cons_of_ne_nil hne
    have hrest : rest = [] := by
      have := congrArg List.length hd
      simp at this
      exact List.length_eq_zero.mp (by omega)
    refine ⟨a, ?_⟩
    rw [← hrest, ← hd, List.take_append_drop]
  rw [hlast, invocations_append, hrun1]
  simp only [Option.bind_eq_bind, Option.some_bind, invocations,
    read_adc_terminal C N last s1 (by omega)]
  exact ⟨_, rfl, rfl, rfl⟩

theorem window_completion_witness :
    ((reset_state []).sampling_count = 0
        ∧ (scenario_readings ++ [fun _ => 0]).length = 3 + 1)
      ∧ ((∀ n ≤ 3, ∃ s', invocations 2 3 ((scenario_readings ++ [fun _ => 0]).take n)
              (start_sampling (reset_state [])) = some s'
            ∧ s'.sampling_done = false ∧ s'.sampling_count = n)
          ∧ ∃ s', invocations 2 3 (scenario_readings ++ [fun _ => 0])
              (start_sampling (reset_state [])) = some s'
            ∧ s'.sampling_done = true ∧ s'.sampling_count = 0) :=
  ⟨⟨rfl, rfl⟩, window_completion 2 3 (scenario_readings ++ [fun _ => 0]) (reset_state [])
    rfl rfl⟩

/-- C5: the sampling step. Invoked with tick counter `t < N`, `read_adc`
selects and reads the analog inputs `0 .. C-1` in ascending order, once each;
afterwards `values_mv[c][t]` holds the conversion of the reading of input `c`
for every `c < C`, every other cell is unchanged, the completion flag is
unchanged, the timer is not cancelled, the tick counter is `t + 1`, and the
callback returns true. -/
theorem read_adc_sampling_step (C N : Nat) (adc : Nat → Nat) (s : State)
    (ht : s.sampling_count < N) :
    ∃ s', read_adc C N adc s = some (s', true)
      ∧ (∀ c < C, s'.values_mv c s.sampling_count = convert (adc c))
      ∧ (∀ c t, ¬ (c < C ∧ t = s.sampling_count) → s'.values_mv c t = s.values_mv c t)
      ∧ s'.adc_reads = s.adc_reads ++ List.range C
      ∧ s'.sampling_done = s.sampling_done
      ∧ s'.timer_armed = s.timer_armed
      ∧ s'.sampling_count = s.sampling_count + 1 := by
  refine ⟨_, read_adc_sampling C N adc s ht, ?_, ?_, rfl, rfl, rfl, rfl⟩
  · intro c hc
    show (if c < C ∧ s.sampling_count = s.sampling_count then convert (adc c)
      else s.values_mv c s.sampling_count) = _
    rw [if_pos ⟨hc, rfl⟩]
  · intro c t hct
    show (if c < C ∧ t = s.sampling_count then convert (adc c) else s.values_mv c t) = _
    rw [if_neg hct]

theorem read_adc_sampling_step_witness :
    (start_sampling (reset_state [])).sampling_count < 3
      ∧ ∃ s', read_adc 2 3 (fun _ => 2048) (start_sampling (reset_state [])) = some (s', true)
        ∧ (∀ c < 2, s'.values_mv c (start_sampling (reset_state [])).sampling_count
            = convert ((fun _ => 2048) c))
        ∧ (∀ c t, ¬ (c < 2 ∧ t = (start_sampling (reset_state [])).sampling_count) →
            s'.values_mv c t = (start_sampling (reset_state [])).values_mv c t)
        ∧ s'.adc_reads = (start_sampling (reset_state [])).adc_reads ++ List.range 2
        ∧ s'.sampling_done = (start_sampling (reset_state [])).sampling_done
        ∧ s'.timer_armed = (start_sampling (reset_state [])).timer_armed
        ∧ s'.sampling_count = (start_sampling (reset_state [])).sampling_count + 1 :=
  ⟨by decide, read_adc_sampling_step 2 3 (fun _ => 2048) (start_sampling (reset_state []))
    (by decide)⟩

/-- C6: the terminal step. Invoked with the tick counter at or beyond `N`,
`read_adc` reads no analog input and leaves every cell of the buffer
unchanged, sets the completion flag, cancels the repeating timer and resets
the tick counter to 0 (and returns true). -/
theorem read_adc_terminal_step (C N : Nat) (adc : Nat → Nat) (s : State)
    (ht : N ≤ s.sampling_count) :
    ∃ s', read_adc C N adc s = some (s', true)
      ∧ s'.values_mv = s.values_mv
      ∧ s'.adc_reads = s.adc_reads
      ∧ s'.sampling_done = true
      ∧ s'.timer_armed = false
      ∧ s'.sampling_count = 0 :=
  ⟨_, read_adc_terminal C N adc s ht, rfl, rfl, rfl, rfl, rfl⟩

theorem read_adc_terminal_step_witness :
    3 ≤ ({ start_sampling (reset_state []) with sampling_count := 3 } : State).sampling_count
      ∧ ∃ s', read_adc 2 3 (fun _ => 2048)
            { start_sampling (reset_state []) with sampling_count := 3 } = some (s', true)
        ∧ s'.values_mv
            = ({ start_sampling (reset_state []) with sampling_count := 3 } : State).values_mv
        ∧ s'.adc_reads
            = ({ start_sampling (reset_state []) with sampling_count := 3 } : State).adc_reads
        ∧ s'.sampling_done = true
        ∧ s'.timer_armed = false
        ∧ s'.sampling_count = 0 :=
  ⟨by decide, read_adc_terminal_step 2 3 (fun _ => 2048)
    { start_sampling (reset_state []) with sampling_count := 3 } (by decide)⟩

/-! ## The conversion -/

/-- C7: on 12-bit raw readings the conversion `round(r * CONVERSION_FACTOR)`
is monotonic non-decreasing and its result lies in `[0, 3300]`. -/
theorem convert_monotone_bounded (r1 r2 : Nat) (h12 : r1 ≤ r2) (h2 : r2 < 4096) :
    convert r1 ≤ convert r2 ∧ 0 ≤ convert r2 ∧ convert r2 ≤ 3300 := by
  rw [convert_eq r1 (by omega), convert_eq r2 h2]
  refine ⟨?_, Nat.zero_le _, ?_⟩ <;> omega

theorem convert_monotone_bounded_witness :
    (512 ≤ 4095 ∧ 4095 < 4096)
      ∧ (convert 512 ≤ convert 4095 ∧ 0 ≤ convert 4095 ∧ convert 4095 ≤ 3300) :=
  ⟨by decide, convert_monotone_bounded 512 4095 (by decide) (by decide)⟩

/-- C8: for every raw reading `r ≤ 4095` the stored value is the integer
nearest to `r * 3300 / 4096`, halves rounded up, that is
`(3300 * r + 2048) / 4096` (and `r = 512`, where the quotient is 412.5, is
stored as 413); `CONVERSION_FACTOR` is exactly `3300 / 4096`, the
single-precision product `adc_value * CONVERSION_FACTOR` is exactly
`r * 3300 / 4096`, and the rounded value fits the `uint16_t` cell. -/
theorem convert_exact (r : Nat) (hr : r ≤ 4095) :
    convert r = (3300 * r + 2048) / 4096
      ∧ (2 * (4096 * convert r) ≤ 2 * (3300 * r) + 4096
          ∧ 2 * (3300 * r) < 2 * (4096 * convert r) + 4096)
      ∧ CONVERSION_FACTOR.num * 4096 = 3300 * CONVERSION_FACTOR.den
      ∧ (f32_mul (f32_of_int r) CONVERSION_FACTOR).num * 4096
          = 3300 * r * (f32_mul (f32_of_int r) CONVERSION_FACTOR).den
      ∧ 0 < (f32_mul (f32_of_int r) CONVERSION_FACTOR).den
      ∧ c_round (f32_mul (f32_of_int r) CONVERSION_FACTOR) < 2 ^ 16
      ∧ convert 512 = 413 := by
  have hconv := convert_eq r (by omega)
  obtain ⟨hP, hPd⟩ := product_exact r (by omega)
  refine ⟨hconv, ?_, ?_, hP, hPd, ?_, ?_⟩
  · rw [hconv]; omega
  · rw [CONVERSION_FACTOR_eq]; norm_num
  · have hfit : c_round (f32_mul (f32_of_int r) CONVERSION_FACTOR) * (2 * 4096) < 2 ^ 16 * (2 * 4096) := by
      unfold c_round
      set P := f32_mul (f32_of_int r) CONVERSION_FACTOR
      have h1 : (2 * P.num + P.den) / (2 * P.den) * (2 * P.den) ≤ 2 * P.num + P.den :=
        Nat.div_mul_le_self _ _
      have h2 : (2 * P.num + P.den) / (2 * P.den) * (2 * P.den) * 4096
          ≤ (2 * (3300 * r) + 4096) * P.den := by nlinarith
      have h3 : (2 * P.num + P.den) / (2 * P.den) * (2 * 4096) * P.den
          ≤ (2 * (3300 * 4095) + 4096) * P.den := by nlinarith
      have h4 := Nat.le_of_mul_le_mul_right h3 hPd
      omega
    exact Nat.lt_of_mul_lt_mul_right hfit
  · rw [convert_eq 512 (by omega)]

theorem convert_exact_witness :
    512 ≤ 4095
      ∧ (convert 512 = (3300 * 512 + 2048) / 4096
        ∧ (2 * (4096 * convert 512) ≤ 2 * (3300 * 512) + 4096
            ∧ 2 * (3300 * 512) < 2 * (4096 * convert 512) + 4096)
        ∧ CONVERSION_FACTOR.num * 4096 = 3300 * CONVERSION_FACTOR.den
        ∧ (f32_mul (f32_of_int 512) CONVERSION_FACTOR).num * 4096
            = 3300 * 512 * (f32_mul (f32_of_int 512) CONVERSION_FACTOR).den
        ∧ 0 < (f32_mul (f32_of_int 512) CONVERSION_FACTOR).den
        ∧ c_round (f32_mul (f32_of_int 512) CONVERSION_FACTOR) < 2 ^ 16
        ∧ convert 512 = 413) :=
  ⟨by decide, convert_exact 512 (by decide)⟩

/-! ## End to end -/

set_option maxRecDepth 100000 in
/-- C9, as the claim states it, fails: the raw reading 4095 is stored as
3299, not 3300, so the record is not the one the claim gives. -/
theorem scenario_counterexample :
    scenario_run.map (fun s => s.values_mv 0 2) = some 3299
      ∧ scenario_record
        ≠ some ("\x7b\"ch0\":[0,1650,3300],\"ch1\":[0,1650,3300]\x7d\n".toList, []) := by
  constructor
  · rfl
  · decide

set_option maxRecDepth 100000 in
/-- C9, amended: with 2 channels, 3 ticks and raw readings 0, 2048, 4095 on
each channel, the driver stores 0, 1650, 3299 for each channel and
`build_json` produces exactly `{"ch0":[0,1650,3299],"ch1":[0,1650,3299]}`
followed by a newline. -/
theorem scenario_record_eq :
    scenario_run.map (fun s => (List.range 2).map fun k => (List.range 3).map (s.values_mv k))
        = some [[0, 1650, 3299], [0, 1650, 3299]]
      ∧ scenario_record
        = some ("\x7b\"ch0\":[0,1650,3299],\"ch1\":[0,1650,3299]\x7d\n".toList, []) := by
  constructor
  · rfl
  · rfl

theorem getD_map_range (N : Nat) (f : Nat → Nat → Nat) (i : Nat) (hi : i < N) (d : Nat → Nat) :
    ((List.range N).map f).getD i d = f i := by
  simp [List.getD_eq_getElem?_getD, hi]

/-- C10: acquisition order is preserved through the pipeline. From an armed
state with tick counter 0, let the driver run its `N` sampling invocations,
the `i`-th reading the 12-bit raw value `r k i` on channel `k`, and the
invocation that sets the completion flag. Then cell `[k][i]` of the buffer
holds `convert (r k i)`, `build_json` writes the record of these values, and
reading the record back gives under key `ch{k}` the sequence whose `i`-th
number is `convert (r k i)`, for every `k < C` and `i < N` (one to ten
channels, `N ≥ 1`). -/
theorem acquisition_order_preserved (C N : Nat) (r : Nat → Nat → Nat) (last : Nat → Nat)
    (s : State) (data : List Char) (hC : 1 ≤ C) (hC10 : C ≤ 10) (hN : 1 ≤ N)
    (hr : ∀ k < C, ∀ i < N, r k i < 4096) (h0 : s.sampling_count = 0) :
    ∃ s', invocations C N ((List.range N).map (fun i k => r k i) ++ [last]) (start_sampling s)
          = some s'
      ∧ s'.sampling_done = true
      ∧ (∀ k < C, ∀ i < N, s'.values_mv k i = convert (r k i))
      ∧ ∃ text, build_json C N s'.values_mv true data (TOTAL_BYTES_TO_SEND C N)
            = some (text, [])
        ∧ text = record_text C N (fun k i => convert (r k i))
        ∧ parse_record text = some ((List.range C).map fun k =>
            ("ch".toList ++ decimal k, (List.range N).map fun i => convert (r k i))) := by
  obtain ⟨s1, hrun1, _, _, hcount1, hval1⟩ :=
    invocations_sampling C N ((List.range N).map (fun i k => r k i)) (start_sampling s) (by
      rw [List.length_map, List.length_range]
      show s.sampling_count + N ≤ N
      omega)
  rw [List.length_map, List.length_range] at hcount1 hval1
  have hc0 : (start_sampling s).sampling_count = 0 := h0
  rw [hc0] at hcount1 hval1
  have hcells : ∀ k < C, ∀ i < N, s1.values_mv k i = convert (r k i) := by
    intro k hk i hi
    rw [hval1 k i, if_pos ⟨hk, Nat.zero_le _, by omega⟩, Nat.sub_zero,
      getD_map_range N (fun i k => r k i) i hi]
  have hbound : ∀ k < C, ∀ i < N, s1.values_mv k i ≤ 9999 := by
    intro k hk i hi
    rw [hcells k hk i hi, convert_eq _ (hr k hk i hi)]
    have := hr k hk i hi
    omega
  refine ⟨{ s1 with sampling_done := true, timer_armed := false, sampling_count := 0 }, ?_,
    rfl, hcells, record_text C N (fun k i => convert (r k i)), ?_, rfl, ?_⟩
  · rw [invocations_append, hrun1]
    simp only [Option.bind_eq_bind, Option.some_bind, invocations,
      read_adc_terminal C N last s1 (by omega)]
  · show build_json C N s1.values_mv true data (TOTAL_BYTES_TO_SEND C N) = _
    rw [build_json_eq C N s1.values_mv data _ hC hC10 hN hbound le_rfl,
      record_text_congr C N s1.values_mv (fun k i => convert (r k i)) hcells]
  · exact parse_record_record_text C N (fun k i => convert (r k i)) hC hN

theorem acquisition_order_preserved_witness :
    (1 ≤ 2 ∧ 2 ≤ 10 ∧ 1 ≤ 3 ∧ (∀ k < 2, ∀ i < 3, sample_buffer k i < 4096)
        ∧ (reset_state []).sampling_count = 0)
      ∧ ∃ s', invocations 2 3 ((List.range 3).map (fun i k => sample_buffer k i)
              ++ [fun _ => 0]) (start_sampling (reset_state [])) = some s'
        ∧ s'.sampling_done = true
        ∧ (∀ k < 2, ∀ i < 3, s'.values_mv k i = convert (sample_buffer k i))
        ∧ ∃ text, build_json 2 3 s'.values_mv true [] (TOTAL_BYTES_TO_SEND 2 3)
              = some (text, [])
          ∧ text = record_text 2 3 (fun k i => convert (sample_buffer k i))
          ∧ parse_record text = some ((List.range 2).map fun k =>
              ("ch".toList ++ decimal k,
                (List.range 3).map fun i => convert (sample_buffer k i))) :=
  ⟨⟨by decide, by decide, by decide, by decide, rfl⟩,
    acquisition_order_preserved 2 3 sample_buffer (fun _ => 0) (reset_state []) []
      (by decide) (by decide) (by decide) (by decide) rfl⟩

/-! ## The main loop in closed form; what every reachable state satisfies -/

theorem main_loop_idle (C N : Nat) (ok : Bool) (s : State) (h : s.sampling_done = false) :
    main_loop_iteration C N ok s = some s := by
  unfold main_loop_iteration
  simp [h]

theorem main_loop_drain (C N : Nat) (ok : Bool) (s : State) (h : s.sampling_done = true) :
    main_loop_iteration C N ok s
      = (build_json C N s.values_mv ok s.data_to_send (TOTAL_BYTES_TO_SEND C N)).map
          fun r => { s with
            data_to_send := r.1
            stdout := s.stdout ++ r.2
            uart := s.uart ++ [r.1]
            sampling_done := false
            timer_armed := true } := by
  unfold main_loop_iteration
  simp only [h, if_true]
  cases build_json C N s.values_mv ok s.data_to_send (TOTAL_BYTES_TO_SEND C N) with
  | none => rfl
  | some r => rfl

theorem inv_startup (N : Nat) (data : List Char) : Inv N (startup data) := by
  refine ⟨Nat.zero_le _, ?_⟩
  intro h
  simp [startup, start_sampling] at h

theorem step_tick_eq (C N : Nat) (adc : Nat → Nat) (s s' : State)
    (h : step C N (Event.tick adc) s = some s') :
    s.timer_armed = true
      ∧ ((s.sampling_count < N
            ∧ s' = { sampled adc s C with sampling_count := s.sampling_count + 1 })
        ∨ (N ≤ s.sampling_count
            ∧ s' =
              { s with sampling_done := true, timer_armed := false, sampling_count := 0 })) := by
  unfold step at h
  by_cases ha : s.timer_armed = true
  · refine ⟨ha, ?_⟩
    simp only [ha, if_true] at h
    by_cases ht : s.sampling_count < N
    · left
      rw [read_adc_sampling C N adc s ht] at h
      exact ⟨ht, (Option.some.inj h).symm⟩
    · right
      rw [read_adc_terminal C N adc s (by omega)] at h
      exact ⟨by omega, (Option.some.inj h).symm⟩
  · simp [ha] at h

theorem step_loop_eq (C N : Nat) (ok : Bool) (s s' : State)
    (h : step C N (Event.loop ok) s = some s') :
    (s.sampling_done = false ∧ s' = s)
      ∨ (s.sampling_done = true
        ∧ ∃ r, build_json C N s.values_mv ok s.data_to_send (TOTAL_BYTES_TO_SEND C N) = some r
          ∧ s' = { s with
              data_to_send := r.1
              stdout := s.stdout ++ r.2
              uart := s.uart ++ [r.1]
              sampling_done := false
              timer_armed := true }) := by
  have h' : main_loop_iteration C N ok s = some s' := h
  cases hd : s.sampling_done with
  | false =>
    left
    rw [main_loop_idle C N ok s hd] at h'
    exact ⟨rfl, (Option.some.inj h').symm⟩
  | true =>
    right
    rw [main_loop_drain C N ok s hd] at h'
    cases hb : build_json C N s.values_mv ok s.data_to_send (TOTAL_BYTES_TO_SEND C N) with
    | none => rw [hb] at h'; exact absurd h' (by simp)
    | some r =>
      rw [hb] at h'
      exact ⟨rfl, r, rfl, (Option.some.inj h').symm⟩

theorem step_inv (C N : Nat) (e : Event) (s s' : State) (hinv : Inv N s)
    (h : step C N e s = some s') : Inv N s' := by
  obtain ⟨hle, hflag⟩ := hinv
  cases e with
  | tick adc =>
    obtain ⟨harmed, hcase⟩ := step_tick_eq C N adc s s' h
    have hnot : s.sampling_done = false := by
      cases hd : s.sampling_done with
      | false => rfl
      | true =>
        have := (hflag hd).1
        rw [harmed] at this
        exact absurd this (by decide)
    rcases hcase with ⟨ht, rfl⟩ | ⟨_, rfl⟩
    · refine ⟨?_, ?_⟩
      · show s.sampling_count + 1 ≤ N
        omega
      · intro hd
        have hd' : s.sampling_done = true := hd
        rw [hnot] at hd'
        exact absurd hd' (by decide)
    · exact ⟨Nat.zero_le _, fun _ => ⟨rfl, rfl⟩⟩
  | loop ok =>
    rcases step_loop_eq C N ok s s' h with ⟨_, rfl⟩ | ⟨_, r, _, rfl⟩
    · exact ⟨hle, hflag⟩
    · refine ⟨hle, ?_⟩
      intro hd
      simp at hd

theorem run_inv (C N : Nat) (events : List Event) :
    ∀ s s', Inv N s → run C N events s = some s' → Inv N s' := by
  induction events with
  | nil =>
    intro s s' hinv h
    have : s = s' := Option.some.inj h
    rw [← this]; exact hinv
  | cons e rest ih =>
    intro s s' hinv h
    simp only [run] at h
    cases hs : step C N e s with
    | none => rw [hs] at h; exact absurd h (by simp)
    | some s1 =>
      rw [hs] at h
      exact ih s1 s' (step_inv C N e s s1 hinv hs) h

/-- Every state reached from start-up satisfies `Inv`. -/
theorem reachable_inv (C N : Nat) (data : List Char) (events : List Event) (s : State)
    (h : run C N events (startup data) = some s) : Inv N s :=
  run_inv C N events (startup data) s (inv_startup N data) h

theorem step_bound (C N : Nat) (e : Event) (s s' : State) (h12 : twelve_bit C e)
    (hb : ∀ c t, s.values_mv c t ≤ 3299) (h : step C N e s = some s') :
    ∀ c t, s'.values_mv c t ≤ 3299 := by
  cases e with
  | tick adc =>
    obtain ⟨_, hcase⟩ := step_tick_eq C N adc s s' h
    rcases hcase with ⟨_, rfl⟩ | ⟨_, rfl⟩
    · intro c t
      show (if c < C ∧ t = s.sampling_count then convert (adc c) else s.values_mv c t) ≤ 3299
      by_cases hc : c < C ∧ t = s.sampling_count
      · rw [if_pos hc, convert_eq (adc c) (h12 c hc.1)]
        have := h12 c hc.1
        omega
      · rw [if_neg hc]; exact hb c t
    · exact hb
  | loop ok =>
    rcases step_loop_eq C N ok s s' h with ⟨_, rfl⟩ | ⟨_, r, _, rfl⟩
    · exact hb
    · exact hb

theorem run_bound (C N : Nat) (events : List Event) :
    ∀ s s', (∀ e ∈ events, twelve_bit C e) → (∀ c t, s.values_mv c t ≤ 3299) →
      run C N events s = some s' → ∀ c t, s'.values_mv c t ≤ 3299 := by
  induction events with
  | nil =>
    intro s s' _ hb h
    have : s = s' := Option.some.inj h
    rw [← this]; exact hb
  | cons e rest ih =>
    intro s s' h12 hb h
    simp only [run] at h
    cases hs : step C N e s with
    | none => rw [hs] at h; exact absurd h (by simp)
    | some s1 =>
      rw [hs] at h
      exact ih s1 s' (fun x hx => h12 x (List.mem_cons_of_mem _ hx))
        (step_bound C N e s s1 (h12 e (List.mem_cons_self _ _)) hb hs) h

/-! ## The hand-over of a completed window -/

/-- C11: in the transition system whose steps are timer ticks (possible only
while the timer is scheduled) and main-loop iterations, every state reached
from start-up with the completion flag set has the timer cancelled: no tick
can happen in it, and every step it can make is a main-loop iteration, which
encodes and sends the buffer as it stands, leaves every cell of the buffer
unchanged, clears the flag and schedules the timer again. -/
theorem completed_window_not_written (C N : Nat) (data : List Char) (events : List Event)
    (s : State) (hrun : run C N events (startup data) = some s)
    (hdone : s.sampling_done = true) :
    s.timer_armed = false
      ∧ (∀ adc, step C N (Event.tick adc) s = none)
      ∧ ∀ e s', step C N e s = some s' →
          ∃ ok r, e = Event.loop ok
            ∧ build_json C N s.values_mv ok s.data_to_send (TOTAL_BYTES_TO_SEND C N) = some r
            ∧ s'.uart = s.uart ++ [r.1]
            ∧ s'.values_mv = s.values_mv
            ∧ s'.sampling_done = false
            ∧ s'.timer_armed = true := by
  have hinv := reachable_inv C N data events s hrun
  have harm : s.timer_armed = false := (hinv.2 hdone).1
  refine ⟨harm, ?_, ?_⟩
  · intro adc
    simp [step, harm]
  · intro e s' hstep
    cases e with
    | tick adc =>
      have := (step_tick_eq C N adc s s' hstep).1
      rw [harm] at this
      exact absurd this (by decide)
    | loop ok =>
      rcases step_loop_eq C N ok s s' hstep with ⟨hf, _⟩ | ⟨_, r, hr, rfl⟩
      · rw [hdone] at hf
        exact absurd hf (by decide)
      · exact ⟨ok, r, rfl, hr, rfl, rfl, rfl, rfl⟩

set_option maxRecDepth 100000 in
theorem completed_window_not_written_witness :
    (run 2 3 first_window (startup []) = some first_completed
        ∧ first_completed.sampling_done = true)
      ∧ (first_completed.timer_armed = false
        ∧ (∀ adc, step 2 3 (Event.tick adc) first_completed = none)
        ∧ ∀ e s', step 2 3 e first_completed = some s' →
            ∃ ok r, e = Event.loop ok
              ∧ build_json 2 3 first_completed.values_mv ok first_completed.data_to_send
                  (TOTAL_BYTES_TO_SEND 2 3) = some r
              ∧ s'.uart = first_completed.uart ++ [r.1]
              ∧ s'.values_mv = first_completed.values_mv
              ∧ s'.sampling_done = false
              ∧ s'.timer_armed = true) :=
  ⟨⟨rfl, rfl⟩, completed_window_not_written 2 3 [] first_window first_completed rfl rfl⟩

/-! ## Allocation failure -/

/-- C12: when `malloc` returns `NULL`, `build_json` prints
`Memory allocation failed` and leaves the destination as it was: no part of
a record is written. -/
theorem build_json_malloc_failure (C N : Nat) (values_mv : Nat → Nat → Nat)
    (data : List Char) (total_bytes : Nat) :
    build_json C N values_mv false data total_bytes
      = some (data, "Memory allocation failed\n".toList) := by
  unfold build_json
  simp

set_option maxRecDepth 100000 in
/-- C13, the code at the failing input: two windows of the two-channel,
three-tick configuration, the first drained with `malloc` succeeding, the
second with `malloc` returning `NULL`. The second drain logs the failure and
still hands `data_to_send` to `uart_puts`, so the record of the first window
goes out a second time; the flag is cleared and the timer scheduled again. -/
theorem failed_drain_sends_stale_record :
    (run 2 3 failed_drain (startup [])).map
        (fun s => (s.uart, s.stdout, s.sampling_done, s.timer_armed))
      = some (["\x7b\"ch0\":[0,1650,3299],\"ch1\":[0,1650,3299]\x7d\n".toList,
            "\x7b\"ch0\":[0,1650,3299],\"ch1\":[0,1650,3299]\x7d\n".toList],
          "Memory allocation failed\n".toList, false, true) := by
  rfl

/-! ## The main loop -/

/-- C14: the transition function of the main loop. An iteration that finds
the completion flag false changes nothing. An iteration that finds it true,
with `malloc` succeeding (one to ten channels, `N ≥ 1`, samples of at most
four digits), sends exactly one record, the one `build_json` makes of the
buffer, and ends with the flag false and the timer scheduled; the buffer and
the tick counter are unchanged and nothing is logged. -/
theorem main_loop_transition (C N : Nat) (s : State) (ok : Bool) (hC : 1 ≤ C) (hC10 : C ≤ 10)
    (hN : 1 ≤ N) (hbuf : ∀ k < C, ∀ i < N, s.values_mv k i ≤ 9999) :
    (s.sampling_done = false → main_loop_iteration C N ok s = some s)
      ∧ (s.sampling_done = true →
          ∃ s', main_loop_iteration C N true s = some s'
            ∧ build_json C N s.values_mv true s.data_to_send (TOTAL_BYTES_TO_SEND C N)
                = some (record_text C N s.values_mv, [])
            ∧ s'.uart = s.uart ++ [record_text C N s.values_mv]
            ∧ s'.sampling_done = false
            ∧ s'.timer_armed = true
            ∧ s'.values_mv = s.values_mv
            ∧ s'.sampling_count = s.sampling_count
            ∧ s'.stdout = s.stdout) := by
  refine ⟨main_loop_idle C N ok s, ?_⟩
  intro hdone
  have hb := build_json_eq C N s.values_mv s.data_to_send _ hC hC10 hN hbuf le_rfl
  refine ⟨{ s with
      data_to_send := record_text C N s.values_mv
      stdout := s.stdout ++ []
      uart := s.uart ++ [record_text C N s.values_mv]
      sampling_done := false
      timer_armed := true }, ?_, hb, rfl, rfl, rfl, rfl, rfl, ?_⟩
  · rw [main_loop_drain C N true s hdone, hb]
    rfl
  · show s.stdout ++ [] = s.stdout
    simp

set_option maxRecDepth 100000 in
theorem main_loop_transition_witness :
    (1 ≤ 2 ∧ 2 ≤ 10 ∧ 1 ≤ 3 ∧ ∀ k < 2, ∀ i < 3, first_completed.values_mv k i ≤ 9999)
      ∧ ((first_completed.sampling_done = false →
            main_loop_iteration 2 3 true first_completed = some first_completed)
        ∧ (first_completed.sampling_done = true →
            ∃ s', main_loop_iteration 2 3 true first_completed = some s'
              ∧ build_json 2 3 first_completed.values_mv true first_completed.data_to_send
                  (TOTAL_BYTES_TO_SEND 2 3)
                  = some (record_text 2 3 first_completed.values_mv, [])
              ∧ s'.uart = first_completed.uart ++ [record_text 2 3 first_completed.values_mv]
              ∧ s'.sampling_done = false
              ∧ s'.timer_armed = true
              ∧ s'.values_mv = first_completed.values_mv
              ∧ s'.sampling_count = first_completed.sampling_count
              ∧ s'.stdout = first_completed.stdout)) :=
  ⟨⟨by decide, by decide, by decide, by decide⟩,
    main_loop_transition 2 3 first_completed true (by decide) (by decide) (by decide)
      (by decide)⟩

/-- C15: re-arming. In every state reached from start-up with the completion
flag set, the main-loop iteration that drains the window and calls
`start_sampling()` ends with the tick counter at 0, the flag false and the
timer scheduled, so the first invocation of `read_adc` in the next window
(`N ≥ 1`) writes tick index 0 and nothing else. -/
theorem rearm_starts_at_tick_zero (C N : Nat) (data : List Char) (events : List Event)
    (s s' : State) (ok : Bool) (hN : 1 ≤ N)
    (hrun : run C N events (startup data) = some s) (hdone : s.sampling_done = true)
    (hloop : step C N (Event.loop ok) s = some s') :
    s'.sampling_count = 0 ∧ s'.sampling_done = false ∧ s'.timer_armed = true
      ∧ ∀ adc, ∃ s'', step C N (Event.tick adc) s' = some s''
          ∧ s''.sampling_count = 1
          ∧ (∀ c < C, s''.values_mv c 0 = convert (adc c))
          ∧ (∀ c t, t ≠ 0 → s''.values_mv c t = s'.values_mv c t) := by
  have hinv := reachable_inv C N data events s hrun
  have hcount : s.sampling_count = 0 := (hinv.2 hdone).2
  rcases step_loop_eq C N ok s s' hloop with ⟨hf, _⟩ | ⟨_, r, _, rfl⟩
  · rw [hdone] at hf
    exact absurd hf (by decide)
  · refine ⟨hcount, rfl, rfl, ?_⟩
    intro adc
    set s1 : State := { s with
      data_to_send := r.1
      stdout := s.stdout ++ r.2
      uart := s.uart ++ [r.1]
      sampling_done := false
      timer_armed := true } with hs1
    have hc1 : s1.sampling_count = 0 := hcount
    have ha1 : s1.timer_armed = true := rfl
    refine ⟨{ sampled adc s1 C with sampling_count := s1.sampling_count + 1 }, ?_, ?_, ?_, ?_⟩
    · simp only [step, ha1, if_true, read_adc_sampling C N adc s1 (by omega), Option.map_some']
    · show s1.sampling_count + 1 = 1
      omega
    · intro c hc
      show (if c < C ∧ 0 = s1.sampling_count then convert (adc c) else s1.values_mv c 0) = _
      rw [if_pos ⟨hc, hc1.symm⟩]
    · intro c t ht
      show (if c < C ∧ t = s1.sampling_count then convert (adc c) else s1.values_mv c t) = _
      rw [if_neg (by rw [hc1]; exact fun h => ht h.2)]

set_option maxRecDepth 100000 in
theorem rearm_starts_at_tick_zero_witness :
    (1 ≤ 3 ∧ run 2 3 first_window (startup []) = some first_completed
        ∧ first_completed.sampling_done = true
        ∧ step 2 3 (Event.loop true) first_completed = some first_drained)
      ∧ (first_drained.sampling_count = 0 ∧ first_drained.sampling_done = false
        ∧ first_drained.timer_armed = true
        ∧ ∀ adc, ∃ s'', step 2 3 (Event.tick adc) first_drained = some s''
            ∧ s''.sampling_count = 1
            ∧ (∀ c < 2, s''.values_mv c 0 = convert (adc c))
            ∧ (∀ c t, t ≠ 0 → s''.values_mv c t = first_drained.values_mv c t)) :=
  ⟨⟨by decide, rfl, rfl, rfl⟩,
    rearm_starts_at_tick_zero 2 3 [] first_window first_completed first_drained true
      (by decide) rfl rfl rfl⟩

/-! ## The byte budget -/

theorem sum_map_range_eq_zero (n : Nat) (f : Nat → Nat) :
    ((List.range n).map f).sum = 0 ↔ ∀ k < n, f k = 0 := by
  induction n with
  | zero => simp
  | succ n ih =>
    rw [List.range_succ, List.map_append, List.sum_append, List.map_singleton,
      List.sum_singleton, Nat.add_eq_zero_iff, ih]
    constructor
    · rintro ⟨h1, h2⟩ k hk
      by_cases hkn : k = n
      · rw [hkn]; exact h2
      · exact h1 k (by omega)
    · intro h
      exact ⟨fun k hk => h k (by omega), h n (by omega)⟩

theorem digit_count_add_unused (C N : Nat) (buf : Nat → Nat → Nat)
    (hbuf : ∀ k < C, ∀ i < N, buf k i ≤ 9999) :
    digit_count C N buf + unused_digits C N buf = 4 * (C * N) := by
  unfold digit_count unused_digits
  rw [← sum_map_range_add]
  rw [sum_map_range_const C (N * 4) _ (fun k hk => by
    rw [← sum_map_range_add]
    exact sum_map_range_const N 4 _ (fun i hi => by
      have := decimal_length_le 3 (buf k i) (by have := hbuf k hk i hi; omega)
      omega))]
  ring

theorem unused_digits_eq_zero (C N : Nat) (buf : Nat → Nat → Nat) :
    unused_digits C N buf = 0 ↔ ∀ k < C, ∀ i < N, 1000 ≤ buf k i := by
  unfold unused_digits
  rw [sum_map_range_eq_zero]
  constructor
  · intro h k hk i hi
    have h1 := (sum_map_range_eq_zero N _).mp (h k hk) i hi
    by_contra hlt
    have := decimal_length_le 2 (buf k i) (by omega)
    omega
  · intro h k hk
    rw [sum_map_range_eq_zero]
    intro i hi
    have := decimal_length_ge 3 (buf k i) (by have := h k hk i hi; omega)
    omega

/-- C16, as the claim states it, fails in its last sentence: for 4 channels
and 1125 ticks `TOTAL_BYTES_TO_SEND` is 22535, not 22531. -/
theorem reference_size_counterexample :
    TOTAL_BYTES_TO_SEND referenceChannels referenceSamples = 22535
      ∧ TOTAL_BYTES_TO_SEND referenceChannels referenceSamples ≠ 22531 := by
  constructor
  · rfl
  · decide

/-- C16, amended: for one to ten channels, `N ≥ 1` ticks and samples of at
most 9999, the text `build_json` builds plus its NUL has
`TOTAL_BYTES_TO_SEND` bytes less the digit positions left unused (four minus
the number of digits, summed over the samples); so it never exceeds
`total_bytes`, and fills it exactly if and only if every sample lies in
1000..9999. For 4 channels and 1125 ticks `TOTAL_BYTES_TO_SEND` is 22535. -/
theorem byte_budget (C N : Nat) (values_mv : Nat → Nat → Nat) (data : List Char)
    (hC : 1 ≤ C) (hC10 : C ≤ 10) (hN : 1 ≤ N)
    (hbuf : ∀ k < C, ∀ i < N, values_mv k i ≤ 9999) :
    (∃ text, build_json C N values_mv true data (TOTAL_BYTES_TO_SEND C N) = some (text, [])
        ∧ text.length + 1 = TOTAL_BYTES_TO_SEND C N - unused_digits C N values_mv
        ∧ text.length + 1 ≤ TOTAL_BYTES_TO_SEND C N
        ∧ (text.length + 1 = TOTAL_BYTES_TO_SEND C N ↔
            ∀ k < C, ∀ i < N, 1000 ≤ values_mv k i))
      ∧ TOTAL_BYTES_TO_SEND referenceChannels referenceSamples = 22535 := by
  refine ⟨⟨record_text C N values_mv,
    build_json_eq C N values_mv data _ hC hC10 hN hbuf le_rfl, ?_, ?_, ?_⟩, rfl⟩
  · rw [record_text_length C N values_mv hC hC10 hN, TOTAL_BYTES_TO_SEND_eq]
    have := digit_count_add_unused C N values_mv hbuf
    omega
  · rw [record_text_length C N values_mv hC hC10 hN, TOTAL_BYTES_TO_SEND_eq]
    have := digit_count_add_unused C N values_mv hbuf
    omega
  · rw [← unused_digits_eq_zero C N values_mv,
      record_text_length C N values_mv hC hC10 hN, TOTAL_BYTES_TO_SEND_eq]
    have := digit_count_add_unused C N values_mv hbuf
    omega

theorem byte_budget_witness :
    (1 ≤ 2 ∧ 2 ≤ 10 ∧ 1 ≤ 3 ∧ ∀ k < 2, ∀ i < 3, sample_buffer k i ≤ 9999)
      ∧ ((∃ text, build_json 2 3 sample_buffer true [] (TOTAL_BYTES_TO_SEND 2 3)
              = some (text, [])
          ∧ text.length + 1 = TOTAL_BYTES_TO_SEND 2 3 - unused_digits 2 3 sample_buffer
          ∧ text.length + 1 ≤ TOTAL_BYTES_TO_SEND 2 3
          ∧ (text.length + 1 = TOTAL_BYTES_TO_SEND 2 3 ↔
              ∀ k < 2, ∀ i < 3, 1000 ≤ sample_buffer k i))
        ∧ TOTAL_BYTES_TO_SEND referenceChannels referenceSamples = 22535) :=
  ⟨by decide, byte_budget 2 3 sample_buffer [] (by decide) (by decide) (by decide)
    (by decide)⟩

/-! ## What every reachable state satisfies -/

/-- C17: every sample an acquisition can produce fits the width the encoder
reserves. In every state reached from start-up with 12-bit raw readings,
every cell of `values_mv` is at most 3299, the conversion of 4095; its numeral
has at most four digits, so both forms of the `sprintf` into the six-byte
`aux` of `build_json` stay inside the array. -/
theorem samples_fit_reserved_width (C N : Nat) (data : List Char) (events : List Event)
    (s : State) (hrun : run C N events (startup data) = some s)
    (h12 : ∀ e ∈ events, twelve_bit C e) :
    convert 4095 = 3299
      ∧ ∀ c t, s.values_mv c t ≤ 3299
        ∧ (sprintf_d (s.values_mv c t)).length ≤ 4
        ∧ sprintf (sizeof_lit "0000,") (sprintf_d (s.values_mv c t) ++ ",".toList)
            = some (sprintf_d (s.values_mv c t) ++ ",".toList)
        ∧ sprintf (sizeof_lit "0000,") (sprintf_d (s.values_mv c t))
            = some (sprintf_d (s.values_mv c t)) := by
  refine ⟨by rw [convert_eq 4095 (by omega)], ?_⟩
  intro c t
  have hb := run_bound C N events (startup data) s h12 (fun _ _ => Nat.zero_le _) hrun c t
  have hlen : (sprintf_d (s.values_mv c t)).length ≤ 4 := by
    rw [sprintf_d_eq]
    exact decimal_length_le 3 _ (by omega)
  refine ⟨hb, hlen, ?_, ?_⟩
  · unfold sprintf
    rw [if_pos (by rw [sizeof_five, List.length_append, comma_length]; omega)]
  · unfold sprintf
    rw [if_pos (by rw [sizeof_five]; omega)]

set_option maxRecDepth 100000 in
theorem samples_fit_reserved_width_witness :
    (run 2 3 first_window (startup []) = some first_completed
        ∧ ∀ e ∈ first_window, twelve_bit 2 e)
      ∧ (convert 4095 = 3299
        ∧ ∀ c t, first_completed.values_mv c t ≤ 3299
          ∧ (sprintf_d (first_completed.values_mv c t)).length ≤ 4
          ∧ sprintf (sizeof_lit "0000,")
                (sprintf_d (first_completed.values_mv c t) ++ ",".toList)
              = some (sprintf_d (first_completed.values_mv c t) ++ ",".toList)
          ∧ sprintf (sizeof_lit "0000,") (sprintf_d (first_completed.values_mv c t))
              = some (sprintf_d (first_completed.values_mv c t))) :=
  ⟨⟨rfl, by simp [first_window, twelve_bit]⟩,
    samples_fit_reserved_width 2 3 [] first_window first_completed rfl
      (by simp [first_window, twelve_bit])⟩

/-- C18: the tick counter is bounded. In every state reached from start-up
through any sequence of driver invocations and main-loop iterations,
`sampling_count ≤ NUMBER_OF_TOTAL_SAMPLES`; and an invocation of `read_adc`
in such a state never indexes `values_mv` outside the array: it returns, and
every cell it changes has `channel < NUMBER_OF_CHANNELS` and tick index
`sampling_count < NUMBER_OF_TOTAL_SAMPLES`. -/
theorem tick_counter_bounded (C N : Nat) (data : List Char) (events : List Event)
    (s : State) (hrun : run C N events (startup data) = some s) :
    s.sampling_count ≤ N
      ∧ ∀ adc, ∃ s', read_adc C N adc s = some (s', true)
          ∧ ∀ c t, s'.values_mv c t ≠ s.values_mv c t →
              c < C ∧ t = s.sampling_count ∧ s.sampling_count < N := by
  have hinv := reachable_inv C N data events s hrun
  refine ⟨hinv.1, ?_⟩
  intro adc
  by_cases ht : s.sampling_count < N
  · refine ⟨_, read_adc_sampling C N adc s ht, ?_⟩
    intro c t hne
    by_cases hc : c < C ∧ t = s.sampling_count
    · exact ⟨hc.1, hc.2, ht⟩
    · exfalso
      apply hne
      show (if c < C ∧ t = s.sampling_count then convert (adc c) else s.values_mv c t) = _
      rw [if_neg hc]
  · refine ⟨_, read_adc_terminal C N adc s (by omega), ?_⟩
    intro c t hne
    exact absurd rfl hne

set_option maxRecDepth 100000 in
theorem tick_counter_bounded_witness :
    run 2 3 first_window (startup []) = some first_completed
      ∧ (first_completed.sampling_count ≤ 3
        ∧ ∀ adc, ∃ s', read_adc 2 3 adc first_completed = some (s', true)
            ∧ ∀ c t, s'.values_mv c t ≠ first_completed.values_mv c t →
                c < 2 ∧ t = first_completed.sampling_count
                  ∧ first_completed.sampling_count < 3) :=
  ⟨rfl, tick_counter_bounded 2 3 [] first_window first_completed rfl⟩

end PicoEEG
